import Mathlib

/-! # undo_manager: a per-thread transactional undo log

Shallow embedding of `src/undo_manager.c` / `src/undo_manager.h`.

* Pointers (`undo_fn`, `void *`) are natural numbers, `0` being `NULL`.
* The singly linked chain hanging off `stack->top` is the list of its nodes,
  most recently pushed first; `top == NULL` is the empty list.
* `count` is a `size_t`; the only arithmetic that can leave its range is the
  `count++` of `push_impl`, which wraps modulo `2 ^ 64`.
* Calling an undo function and releasing a node with `free` are the two
  observable effects; every operation returns the events it performed, in
  the order it performed them.  Undo functions do not call back into the log.
* Dereferencing a null `cur` and a loop that never ends are explicit results.
* Every operation below is the body that runs on the stack returned by
  `get_stack()`.
-/

namespace UndoManager

/-- Number of values of `size_t` (`undo_sp_t`, 64 bits wide): `count++` wraps at this bound. -/
def SIZE_MOD : Nat := 2 ^ 64

/-- The record `undo_action_t` without its `next` link (the link is the list tail). -/
structure undo_action_t where
  undo : Nat
  context : Nat
deriving DecidableEq

/-- The record `undo_stack_t`: the chain reachable from `top`, and `count`. -/
structure undo_stack_t where
  top : List undo_action_t
  count : Nat
deriving DecidableEq

/-- Observable effects: `cur->undo(cur->context)` and `free(cur)`. -/
inductive Event where
  | invoke (fn ctx : Nat)
  | release (a : undo_action_t)
deriving DecidableEq

/-- Ways an operation can fail to return. -/
inductive Halt where
  | null_deref
  | out_of_fuel
  | aborted
deriving DecidableEq

/-- Result of an operation: the new stack and the events performed, or a halt. -/
abbrev Outcome := Except Halt (undo_stack_t × List Event)

/-- Source `remove_one(stack, to_delete)`. -/
def remove_one (stack : undo_stack_t) (to_delete : Int) : Outcome :=
  if stack.count > 0 then
    match stack.top with
    | [] => .error .null_deref
    | cur :: next =>
      .ok (⟨next, stack.count - 1⟩,
        (if to_delete ≠ 0 ∧ cur.undo ≠ 0 ∧ cur.context ≠ 0
          then [Event.invoke cur.undo cur.context] else []) ++ [Event.release cur])
  else .ok (stack, [])

/-- The loop `while (cur) { remove_one(stack, to_delete); cur = stack->top; }`
of `commit_impl` and `rollback_impl`, with `cur = stack->top` on entry. -/
def while_top (to_delete : Int) : Nat → undo_stack_t → Outcome
  | 0, stack =>
    match stack.top with
    | [] => .ok (stack, [])
    | _ :: _ => .error .out_of_fuel
  | fuel + 1, stack =>
    match stack.top with
    | [] => .ok (stack, [])
    | _ :: _ =>
      match remove_one stack to_delete with
      | .error e => .error e
      | .ok (s1, ev1) =>
        match while_top to_delete fuel s1 with
        | .error e => .error e
        | .ok (s2, ev2) => .ok (s2, ev1 ++ ev2)

/-- The loop `while (stack->count > sp) { remove_one(stack, to_delete); }`
of `rollback_to_impl`, `commit_to_impl` (and `destroy`, with `sp = 0`). -/
def while_count (to_delete : Int) (sp : Nat) : Nat → undo_stack_t → Outcome
  | 0, stack => if stack.count > sp then .error .out_of_fuel else .ok (stack, [])
  | fuel + 1, stack =>
    if stack.count > sp then
      match remove_one stack to_delete with
      | .error e => .error e
      | .ok (s1, ev1) =>
        match while_count to_delete sp fuel s1 with
        | .error e => .error e
        | .ok (s2, ev2) => .ok (s2, ev1 ++ ev2)
    else .ok (stack, [])

/-- Source `mark_impl`. -/
def mark_impl (stack : undo_stack_t) : Nat := stack.count

/-- Source `push_impl`, on a node returned by `malloc`. -/
def push_impl (fn context : Nat) (stack : undo_stack_t) : undo_stack_t :=
  { top := ⟨fn, context⟩ :: stack.top, count := (stack.count + 1) % SIZE_MOD }

/-- Source `commit_impl`. -/
def commit_impl (fuel : Nat) (stack : undo_stack_t) : Outcome :=
  match while_top 0 fuel stack with
  | .error e => .error e
  | .ok (s1, ev) => .ok ({ s1 with top := [], count := 0 }, ev)

/-- Source `rollback_impl`. -/
def rollback_impl (fuel : Nat) (stack : undo_stack_t) : Outcome :=
  match while_top 1 fuel stack with
  | .error e => .error e
  | .ok (s1, ev) => .ok ({ s1 with top := [], count := 0 }, ev)

/-- Source `rollback_to_impl`. -/
def rollback_to_impl (sp : Nat) (fuel : Nat) (stack : undo_stack_t) : Outcome :=
  while_count 1 sp fuel stack

/-- Source `commit_to_impl`. -/
def commit_to_impl (sp : Nat) (fuel : Nat) (stack : undo_stack_t) : Outcome :=
  while_count 0 sp fuel stack

/-! ## Vocabulary of the statements -/

/-- The stack a thread starts with: `calloc(1, sizeof(undo_stack_t))`. -/
def empty : undo_stack_t := { top := [], count := 0 }

/-- A run of `push` calls, first element pushed first. -/
def push_all (acts : List (Nat × Nat)) (stack : undo_stack_t) : undo_stack_t :=
  acts.foldl (fun s a => push_impl a.1 a.2 s) stack

/-- Both the undo function and the context data are non-null. -/
def both_non_null (a : undo_action_t) : Bool := a.undo != 0 && a.context != 0

/-- The calls `(fn, ctx)` a trace contains, in order. -/
def invocations : List Event → List (Nat × Nat)
  | [] => []
  | .invoke fn ctx :: es => (fn, ctx) :: invocations es
  | .release _ :: es => invocations es

/-- The nodes a trace released (popped), in order. -/
def released : List Event → List undo_action_t
  | [] => []
  | .invoke _ _ :: es => released es
  | .release a :: es => a :: released es

/-- The calls owed to a run of actions: those with both fields non-null, in order. -/
def calls_of (l : List undo_action_t) : List (Nat × Nat) :=
  (l.filter both_non_null).map (fun a => (a.undo, a.context))

/-- The invariant `depth = number of actions reachable from top`. -/
def Consistent (stack : undo_stack_t) : Prop := stack.count = stack.top.length

instance (stack : undo_stack_t) : Decidable (Consistent stack) := by
  unfold Consistent; infer_instance

/-- The events of popping the actions `l` one after the other from the top. -/
def pop_events (to_delete : Int) : List undo_action_t → List Event
  | [] => []
  | cur :: rest =>
    ((if to_delete ≠ 0 ∧ cur.undo ≠ 0 ∧ cur.context ≠ 0
      then [Event.invoke cur.undo cur.context] else []) ++ [Event.release cur])
      ++ pop_events to_delete rest

/-- The scenario `sp1 = mark(); push(a); sp2 = mark(); push(b); rollbackTo(sp1)`. -/
def nested_marks (a b : Nat × Nat) (fuel : Nat) (L : undo_stack_t) : Outcome :=
  let sp1 := mark_impl L
  let s1 := push_impl a.1 a.2 L
  let _sp2 := mark_impl s1
  let s2 := push_impl b.1 b.2 s1
  rollback_to_impl sp1 fuel s2

/-- Run `f` on the stack the previous operation returned; the events add up. -/
def and_then (o : Outcome) (f : undo_stack_t → Outcome) : Outcome :=
  match o with
  | .error e => .error e
  | .ok (s1, ev1) =>
    match f s1 with
    | .error e => .error e
    | .ok (s2, ev2) => .ok (s2, ev1 ++ ev2)

/-- The scenario `push(f1,c1); push(f2,c2); sp = mark(); push(f3,c3); commitTo(sp);
rollback()` on a fresh log. -/
def commit_to_scenario (a1 a2 a3 : Nat × Nat) (fuel : Nat) : Outcome :=
  let s1 := push_impl a1.1 a1.2 empty
  let s2 := push_impl a2.1 a2.2 s1
  let sp := mark_impl s2
  let s3 := push_impl a3.1 a3.2 s2
  and_then (commit_to_impl sp fuel s3) (rollback_impl fuel)

/-! ## The thread's slot, the library calls and the exported table -/

/-- Results of the library calls an operation may make: `calloc` and
`pthread_setspecific` in `get_stack`, `malloc` in `push_impl`. -/
structure Libc where
  calloc_ok : Bool
  setspecific_ok : Bool
  malloc_ok : Bool
deriving DecidableEq

/-- Every library call succeeds. -/
def Libc.all_ok : Libc := { calloc_ok := true, setspecific_ok := true, malloc_ok := true }

/-- Source `get_stack()`, on the value `pthread_getspecific(key)` holds for the calling
thread: `none` is `NULL`.  The stack returned is the one the slot points to afterwards. -/
def get_stack (lib : Libc) (slot : Option undo_stack_t) : Except Halt undo_stack_t :=
  match slot with
  | some stack => .ok stack
  | none =>
    if lib.calloc_ok then
      if lib.setspecific_ok then .ok { top := [], count := 0 } else .error .aborted
    else .error .aborted

/-- Source `push_impl` with the result of `malloc`: the stores `action->undo = fn`, ...
go through the pointer `malloc` returned, unchecked. -/
def push_impl_alloc (lib : Libc) (fn context : Nat) (stack : undo_stack_t) : Outcome :=
  if lib.malloc_ok then .ok (push_impl fn context stack, []) else .error .null_deref

/-- Source `destroy(memory)`: the stack as it is when `free(stack)` runs, the events of
the drain, and the thread's slot after `pthread_setspecific(key, NULL)`. -/
def destroy (fuel : Nat) (stack : undo_stack_t) :
    Except Halt (undo_stack_t × List Event × Option undo_stack_t) :=
  match while_count 0 0 fuel stack with
  | .error e => .error e
  | .ok (s1, ev) => .ok (s1, ev, none)

/-- The six designators of the initialiser of `Undo` in `undo_manager.c`. -/
inductive Op where
  | push (fn context : Nat)
  | mark
  | rollback_to (sp : Nat)
  | rollback
  | commit_to (sp : Nat)
  | commit
deriving DecidableEq

/-- What a call leaves behind: the stack the thread's slot points to, the events
performed, and the value returned (`mark` only). -/
structure Reply where
  stack : undo_stack_t
  events : List Event
  value : Option Nat
deriving DecidableEq

/-- Wrap the outcome of a `void` operation. -/
def Reply.of_outcome (o : Outcome) : Except Halt Reply :=
  match o with
  | .error e => .error e
  | .ok (s, ev) => .ok { stack := s, events := ev, value := none }

/-- A call through the table `Undo` as `undo_manager.c` initialises it, made from a
thread whose slot is `slot`. -/
def Undo_call (fuel : Nat) (lib : Libc) (op : Op) (slot : Option undo_stack_t) :
    Except Halt Reply :=
  match get_stack lib slot with
  | .error e => .error e
  | .ok stack =>
    match op with
    | .push fn context => Reply.of_outcome (push_impl_alloc lib fn context stack)
    | .mark => .ok { stack := stack, events := [], value := some (mark_impl stack) }
    | .rollback_to sp => Reply.of_outcome (rollback_to_impl sp fuel stack)
    | .rollback => Reply.of_outcome (rollback_impl fuel stack)
    | .commit_to sp => Reply.of_outcome (commit_to_impl sp fuel stack)
    | .commit => Reply.of_outcome (commit_impl fuel stack)

/-- A run of calls made from one thread: the slot at the end and, per call, the
events it performed and the value it returned. -/
def run_thread (fuel : Nat) (lib : Libc) :
    List Op → Option undo_stack_t →
      Except Halt (Option undo_stack_t × List (List Event × Option Nat))
  | [], slot => .ok (slot, [])
  | op :: ops, slot =>
    match Undo_call fuel lib op slot with
    | .error e => .error e
    | .ok r =>
      match run_thread fuel lib ops (some r.stack) with
      | .error e => .error e
      | .ok (slot1, recs) => .ok (slot1, (r.events, r.value) :: recs)

/-- The operation a table entry runs on the stack `get_stack()` returned. -/
def exec_op (fuel : Nat) (lib : Libc) (op : Op) (stack : undo_stack_t) : Except Halt Reply :=
  match op with
  | .push fn context => Reply.of_outcome (push_impl_alloc lib fn context stack)
  | .mark => .ok { stack := stack, events := [], value := some (mark_impl stack) }
  | .rollback_to sp => Reply.of_outcome (rollback_to_impl sp fuel stack)
  | .rollback => Reply.of_outcome (rollback_impl fuel stack)
  | .commit_to sp => Reply.of_outcome (commit_to_impl sp fuel stack)
  | .commit => Reply.of_outcome (commit_impl fuel stack)

/-- The memory all threads share: the statics `key_once` and `key` of
`undo_manager.c`, the number of keys `pthread_key_create` has handed out (keys
below it are valid), pthread's table of thread-specific values (thread, key,
value; `0` is `NULL`), the `undo_stack_t` objects on the heap by address, and the
highest address `calloc` has handed out. -/
structure Memory where
  key_once : Bool
  key : Nat
  keys : Nat
  tsd : Nat → Nat → Nat
  heap : Nat → Option undo_stack_t
  brk : Nat

/-- Source `make_key`: `pthread_key_create(&key, destroy)`, whose result the source
does not test.  A new key holds `NULL` in every thread. -/
def make_key (key_create_ok : Bool) (M : Memory) : Memory :=
  if key_create_ok then
    { M with key := M.keys, keys := M.keys + 1,
             tsd := fun t k => if k = M.keys then 0 else M.tsd t k }
  else M

/-- The call `pthread_once(&key_once, make_key)`. -/
def pthread_once (key_create_ok : Bool) (M : Memory) : Memory :=
  if M.key_once then M else { make_key key_create_ok M with key_once := true }

/-- The call `pthread_getspecific(key)` made from thread `tid`. -/
def pthread_getspecific (M : Memory) (tid key : Nat) : Nat :=
  if key < M.keys then M.tsd tid key else 0

/-- The call `pthread_setspecific(key, value)` made from thread `tid`; `none` is a
non-zero return value. -/
def pthread_setspecific (ok : Bool) (M : Memory) (tid key value : Nat) : Option Memory :=
  if ok = true ∧ key < M.keys then
    some { M with tsd := fun t k => if t = tid ∧ k = key then value else M.tsd t k }
  else none

/-- A successful `calloc(1, sizeof(undo_stack_t))`: a fresh address holding a zeroed
stack. -/
def calloc_stack (M : Memory) : Nat × Memory :=
  (M.brk + 1,
   { M with heap := fun a => if a = M.brk + 1 then some { top := [], count := 0 } else M.heap a,
            brk := M.brk + 1 })

/-- Source `get_stack()` called from thread `tid`, on the shared memory: the pointer
returned and the memory afterwards. -/
def get_stack_shared (lib : Libc) (key_create_ok : Bool) (tid : Nat) (M : Memory) :
    Except Halt (Nat × Memory) :=
  let M1 := pthread_once key_create_ok M
  let stack := pthread_getspecific M1 tid M1.key
  if stack ≠ 0 then .ok (stack, M1)
  else if lib.calloc_ok then
    match pthread_setspecific lib.setspecific_ok (calloc_stack M1).2 tid
        (calloc_stack M1).2.key (calloc_stack M1).1 with
    | none => .error .aborted
    | some M3 => .ok ((calloc_stack M1).1, M3)
  else .error .aborted

/-- A call through the table `Undo` made from thread `tid`, on the shared memory:
the operation reads and writes the stack through the pointer `get_stack()`
returned; a pointer that designates no live stack is a fault. -/
def Undo_call_shared (fuel : Nat) (lib : Libc) (key_create_ok : Bool) (tid : Nat) (op : Op)
    (M : Memory) : Except Halt (Memory × List Event × Option Nat) :=
  match get_stack_shared lib key_create_ok tid M with
  | .error e => .error e
  | .ok (ptr, M1) =>
    match M1.heap ptr with
    | none => .error .null_deref
    | some stack =>
      match exec_op fuel lib op stack with
      | .error e => .error e
      | .ok r =>
        .ok ({ M1 with heap := fun a => if a = ptr then some r.stack else M1.heap a },
          r.events, r.value)

/-- A run of calls made from several threads on the shared memory, interleaved call
by call: each entry names the calling thread; the records carry the thread
that made the call. -/
def run_shared (fuel : Nat) (lib : Libc) (key_create_ok : Bool) :
    List (Nat × Op) → Memory →
      Except Halt (Memory × List (Nat × List Event × Option Nat))
  | [], M => .ok (M, [])
  | (tid, op) :: rest, M =>
    match Undo_call_shared fuel lib key_create_ok tid op M with
    | .error e => .error e
    | .ok (M1, ev, v) =>
      match run_shared fuel lib key_create_ok rest M1 with
      | .error e => .error e
      | .ok (M2, recs) => .ok (M2, (tid, ev, v) :: recs)

/-- The log thread `tid` owns in the shared memory: what its value under `key`
points to, `none` when it has none. -/
def log_of (M : Memory) (tid : Nat) : Option undo_stack_t :=
  if M.key_once = true then
    if pthread_getspecific M tid M.key = 0 then none
    else M.heap (pthread_getspecific M tid M.key)
  else none

/-- The memory of a process in which no thread has called into the table yet. -/
def Memory.start : Memory :=
  { key_once := false, key := 0, keys := 0, tsd := fun _ _ => 0, heap := fun _ => none,
    brk := 0 }

/-- Once `key` exists it is a valid key, every non-null value under it is the
address of a live stack handed out by `calloc`, and no two threads hold the
same one. -/
def Sound (M : Memory) : Prop :=
  M.key_once = true →
    M.key < M.keys
    ∧ (∀ t, M.tsd t M.key ≠ 0 → M.tsd t M.key ≤ M.brk ∧ ∃ s, M.heap (M.tsd t M.key) = some s)
    ∧ (∀ t1 t2, M.tsd t1 M.key ≠ 0 → M.tsd t1 M.key = M.tsd t2 M.key → t1 = t2)

/-- The calls of a schedule made from thread `tid`, in order. -/
def calls_from (tid : Nat) (sched : List (Nat × Op)) : List Op :=
  (sched.filter (fun c => c.1 = tid)).map (fun c => c.2)

/-- The records of a run that belong to thread `tid`, in order. -/
def records_from (tid : Nat) (recs : List (Nat × List Event × Option Nat)) :
    List (List Event × Option Nat) :=
  (recs.filter (fun c => c.1 = tid)).map (fun c => c.2)

/-- Member names that occur in the table type or in its initialiser. -/
inductive Member where
  | push
  | commit
  | abort
  | mark
  | rollback_to
  | commit_to
  | rollback
deriving DecidableEq

/-- The members of `struct undo_manager_t` as `undo_manager.h` declares them, in order. -/
def undo_manager_t_members : List Member :=
  [.push, .commit, .abort, .mark, .rollback_to, .commit_to]

/-- The functions of `undo_manager.c` an entry can be bound to. -/
inductive Impl where
  | push_impl
  | mark_impl
  | rollback_to_impl
  | rollback_impl
  | commit_to_impl
  | commit_impl
deriving DecidableEq

/-- The designated initialiser of `Undo` in `undo_manager.c`, in order. -/
def Undo_initialiser : List (Member × Impl) :=
  [(.push, .push_impl), (.mark, .mark_impl), (.rollback_to, .rollback_to_impl),
   (.rollback, .rollback_impl), (.commit_to, .commit_to_impl), (.commit, .commit_impl)]

/-! ## Lemmas on the two loops -/

theorem remove_one_cons (cur : undo_action_t) (next : List undo_action_t) (n : Nat)
    (td : Int) (h : 0 < n) :
    remove_one ⟨cur :: next, n⟩ td
      = .ok (⟨next, n - 1⟩,
          (if td ≠ 0 ∧ cur.undo ≠ 0 ∧ cur.context ≠ 0
            then [Event.invoke cur.undo cur.context] else []) ++ [Event.release cur]) := by
  simp [remove_one, h]

theorem while_count_stop (td : Int) (sp fuel : Nat) (s : undo_stack_t) (h : s.count ≤ sp) :
    while_count td sp fuel s = .ok (s, []) := by
  cases fuel <;> simp [while_count, Nat.not_lt.mpr h]

theorem while_count_spec (td : Int) (sp : Nat) :
    ∀ (k fuel : Nat) (top : List undo_action_t), k ≤ top.length → k ≤ fuel →
      while_count td sp fuel ⟨top, sp + k⟩
        = .ok (⟨top.drop k, sp⟩, pop_events td (top.take k)) := by
  intro k
  induction k with
  | zero =>
    intro fuel top _ _
    rw [while_count_stop td sp fuel _ (by simp)]
    simp [pop_events]
  | succ k ih =>
    intro fuel top hlen hfuel
    cases fuel with
    | zero => omega
    | succ fuel =>
      cases top with
      | nil => simp at hlen
      | cons cur next =>
        have hlen2 : k ≤ next.length := by simpa using hlen
        have hpos : sp < sp + (k + 1) := by omega
        have hstep := remove_one_cons cur next (sp + (k + 1)) td (by omega)
        have hpred : sp + (k + 1) - 1 = sp + k := by omega
        rw [hpred] at hstep
        simp only [while_count, hpos, if_true, hstep, ih fuel next hlen2 (by omega)]
        simp [pop_events]

theorem while_top_spec (td : Int) :
    ∀ (top : List undo_action_t) (fuel n : Nat), top.length ≤ n → top.length ≤ fuel →
      while_top td fuel ⟨top, n⟩ = .ok (⟨[], n - top.length⟩, pop_events td top) := by
  intro top
  induction top with
  | nil =>
    intro fuel n _ _
    cases fuel <;> simp [while_top, pop_events]
  | cons cur next ih =>
    intro fuel n hn hfuel
    cases fuel with
    | zero => simp at hfuel
    | succ fuel =>
      have hn2 : next.length + 1 ≤ n := by simpa using hn
      have hf2 : next.length + 1 ≤ fuel + 1 := by simpa using hfuel
      have hstep := remove_one_cons cur next n td (by omega)
      simp only [while_top, hstep, ih fuel (n - 1) (by omega) (by omega)]
      have : n - 1 - next.length = n - (next.length + 1) := by omega
      simp [pop_events, this]

theorem invocations_append (xs ys : List Event) :
    invocations (xs ++ ys) = invocations xs ++ invocations ys := by
  induction xs with
  | nil => rfl
  | cons e es ih => cases e <;> simp [invocations, ih]

theorem released_append (xs ys : List Event) :
    released (xs ++ ys) = released xs ++ released ys := by
  induction xs with
  | nil => rfl
  | cons e es ih => cases e <;> simp [released, ih]

theorem released_pop_events (td : Int) (l : List undo_action_t) :
    released (pop_events td l) = l := by
  induction l with
  | nil => rfl
  | cons cur rest ih =>
    by_cases h : td ≠ 0 ∧ cur.undo ≠ 0 ∧ cur.context ≠ 0 <;>
      simp [pop_events, released_append, released, h, ih]

theorem invocations_pop_events_commit (l : List undo_action_t) :
    invocations (pop_events 0 l) = [] := by
  induction l with
  | nil => rfl
  | cons cur rest ih => simp [pop_events, invocations_append, invocations, ih]

theorem invocations_pop_events_rollback (l : List undo_action_t) :
    invocations (pop_events 1 l) = calls_of l := by
  induction l with
  | nil => rfl
  | cons cur rest ih =>
    by_cases h : cur.undo ≠ 0 ∧ cur.context ≠ 0
    · have hb : both_non_null cur = true := by
        simp [both_non_null, h.1, h.2]
      simp [pop_events, invocations_append, invocations, h, ih, calls_of, List.filter_cons, hb]
    · have hb : both_non_null cur = false := by
        simp only [both_non_null, Bool.and_eq_false_iff, bne_eq_false_iff_eq]
        by_contra hc
        exact h ⟨fun h1 => hc (Or.inl h1), fun h2 => hc (Or.inr h2)⟩
      simp only [pop_events, invocations_append, invocations, h, ih, calls_of,
        List.filter_cons, hb]
      simp

theorem push_all_top (acts : List (Nat × Nat)) (s : undo_stack_t) :
    (push_all acts s).top
      = (acts.reverse.map fun a => (⟨a.1, a.2⟩ : undo_action_t)) ++ s.top := by
  induction acts generalizing s with
  | nil => rfl
  | cons a rest ih =>
    simp only [push_all, List.foldl_cons] at ih ⊢
    rw [ih]
    simp [push_impl]

theorem push_all_count (acts : List (Nat × Nat)) (s : undo_stack_t)
    (h : s.count + acts.length < SIZE_MOD) :
    (push_all acts s).count = s.count + acts.length := by
  induction acts generalizing s with
  | nil => rfl
  | cons a rest ih =>
    simp only [push_all, List.foldl_cons, List.length_cons] at ih h ⊢
    have h1 : (push_impl a.1 a.2 s).count = s.count + 1 := by
      simp only [push_impl]
      exact Nat.mod_eq_of_lt (by omega)
    rw [ih (push_impl a.1 a.2 s) (by omega), h1]
    omega

theorem while_count_eq (td : Int) (sp fuel : Nat) (s : undo_stack_t)
    (h1 : sp ≤ s.count) (h2 : s.count - sp ≤ s.top.length) (h3 : s.count - sp ≤ fuel) :
    while_count td sp fuel s
      = .ok (⟨s.top.drop (s.count - sp), sp⟩, pop_events td (s.top.take (s.count - sp))) := by
  obtain ⟨top, count⟩ := s
  simp only at h1 h2 h3 ⊢
  have h := while_count_spec td sp (count - sp) fuel top h2 h3
  have hc : sp + (count - sp) = count := by omega
  rw [hc] at h
  exact h

theorem while_top_eq (td : Int) (fuel : Nat) (s : undo_stack_t)
    (h1 : s.top.length ≤ s.count) (h2 : s.top.length ≤ fuel) :
    while_top td fuel s = .ok (⟨[], s.count - s.top.length⟩, pop_events td s.top) := by
  obtain ⟨top, count⟩ := s
  exact while_top_spec td top fuel count h1 h2

theorem while_count_drain (td : Int) (fuel : Nat) (top : List undo_action_t) (n : Nat)
    (hn : n = top.length) (hf : n ≤ fuel) :
    while_count td 0 fuel ⟨top, n⟩ = .ok (⟨[], 0⟩, pop_events td top) := by
  have h := while_count_spec td 0 n fuel top (by omega) hf
  rw [Nat.zero_add] at h
  rw [h, hn, List.drop_length, List.take_length]

theorem calls_of_pushed (acts : List (Nat × Nat)) :
    calls_of (acts.map fun a => (⟨a.1, a.2⟩ : undo_action_t))
      = acts.filter (fun a => a.1 ≠ 0 ∧ a.2 ≠ 0) := by
  have h1 : ((fun a : undo_action_t => (a.undo, a.context))
      ∘ fun a : Nat × Nat => (⟨a.1, a.2⟩ : undo_action_t)) = id := by
    funext a; rfl
  have h2 : (both_non_null ∘ fun a : Nat × Nat => (⟨a.1, a.2⟩ : undo_action_t))
      = fun a => decide (a.1 ≠ 0 ∧ a.2 ≠ 0) := by
    funext a
    by_cases ha : a.1 = 0 <;> by_cases hb : a.2 = 0 <;> simp [both_non_null, ha, hb]
  simp only [calls_of, List.filter_map, List.map_map]
  rw [h1, h2, List.map_id]

theorem calls_of_append (xs ys : List undo_action_t) :
    calls_of (xs ++ ys) = calls_of xs ++ calls_of ys := by
  simp [calls_of]

theorem calls_of_cons (a : undo_action_t) (l : List undo_action_t) :
    calls_of (a :: l)
      = (if a.undo ≠ 0 ∧ a.context ≠ 0 then [(a.undo, a.context)] else []) ++ calls_of l := by
  have h := invocations_pop_events_rollback (a :: l)
  rw [← h, ← invocations_pop_events_rollback l]
  by_cases hc : a.undo ≠ 0 ∧ a.context ≠ 0 <;>
    simp [pop_events, invocations_append, invocations, hc]

theorem pop_events_append (td : Int) (xs ys : List undo_action_t) :
    pop_events td (xs ++ ys) = pop_events td xs ++ pop_events td ys := by
  induction xs with
  | nil => rfl
  | cons a rest ih => simp [pop_events, ih]

theorem while_count_result_le (td : Int) (sp : Nat) :
    ∀ (fuel : Nat) (s s1 : undo_stack_t) (ev : List Event),
      while_count td sp fuel s = .ok (s1, ev) → s1.count ≤ sp := by
  intro fuel
  induction fuel with
  | zero =>
    intro s s1 ev h
    by_cases hgt : s.count > sp
    · simp [while_count, hgt] at h
    · simp only [while_count, hgt, if_false, Except.ok.injEq, Prod.mk.injEq] at h
      rw [← h.1]; omega
  | succ fuel ih =>
    intro s s1 ev h
    by_cases hgt : s.count > sp
    · simp only [while_count, hgt, if_true] at h
      cases hr : remove_one s td with
      | error e => simp [hr] at h
      | ok p =>
        obtain ⟨s2, ev2⟩ := p
        simp only [hr] at h
        cases hw : while_count td sp fuel s2 with
        | error e => simp [hw] at h
        | ok q =>
          obtain ⟨s3, ev3⟩ := q
          simp only [hw, Except.ok.injEq, Prod.mk.injEq] at h
          have := ih s2 s3 ev3 hw
          rw [← h.1]; exact this
    · simp only [while_count, hgt, if_false, Except.ok.injEq, Prod.mk.injEq] at h
      rw [← h.1]; omega

theorem while_count_consistent (td : Int) (sp fuel : Nat) (s : undo_stack_t)
    (hc : Consistent s) (hf : s.count - sp ≤ fuel) :
    ∃ s1 ev, while_count td sp fuel s = .ok (s1, ev) ∧ Consistent s1
      ∧ s1.count ≤ s.count ∧ s1.count = min s.count sp
      ∧ released ev = s.top.take (s.count - sp) := by
  have hc2 : s.count = s.top.length := hc
  by_cases hsp : sp < s.count
  · refine ⟨_, _, while_count_eq td sp fuel s (by omega) (by omega) hf, ?_, ?_, ?_, ?_⟩
    · simp only [Consistent, List.length_drop]; omega
    · simp only; omega
    · simp only; omega
    · exact released_pop_events td _
  · refine ⟨s, [], while_count_stop td sp fuel s (by omega), hc, Nat.le_refl _, ?_, ?_⟩
    · omega
    · have h0 : s.count - sp = 0 := by omega
      rw [h0]; rfl

theorem while_top_consistent (td : Int) (fuel : Nat) (s : undo_stack_t)
    (hc : Consistent s) (hf : s.count ≤ fuel) :
    while_top td fuel s = .ok (⟨[], 0⟩, pop_events td s.top) := by
  have hc2 : s.count = s.top.length := hc
  have h := while_top_eq td fuel s (by omega) (by omega)
  rw [h, hc2, Nat.sub_self]

theorem Undo_call_consistent (fuel : Nat) (lib : Libc) (hm : lib.malloc_ok = true)
    (s : undo_stack_t) (op : Op) (hc : Consistent s) (hb : s.count + 1 < SIZE_MOD)
    (hf : s.count ≤ fuel) :
    ∃ r, Undo_call fuel lib op (some s) = .ok r ∧ Consistent r.stack
      ∧ r.stack.count ≤ s.count + 1 := by
  have hc2 : s.count = s.top.length := hc
  cases op with
  | push fn ctx =>
    refine ⟨⟨push_impl fn ctx s, [], none⟩, ?_, ?_, ?_⟩
    · simp [Undo_call, get_stack, push_impl_alloc, hm, Reply.of_outcome]
    · simp only [Consistent, push_impl, List.length_cons, Nat.mod_eq_of_lt hb]; omega
    · simp only [push_impl, Nat.mod_eq_of_lt hb]; omega
  | mark =>
    exact ⟨⟨s, [], some (mark_impl s)⟩, by simp [Undo_call, get_stack], hc, by simp⟩
  | rollback_to sp =>
    obtain ⟨s1, ev, h1, h2, h3, -, -⟩ := while_count_consistent 1 sp fuel s hc (by omega)
    exact ⟨⟨s1, ev, none⟩,
      by simp [Undo_call, get_stack, rollback_to_impl, h1, Reply.of_outcome], h2,
      by simp only; omega⟩
  | rollback =>
    have h1 := while_top_consistent 1 fuel s hc hf
    exact ⟨⟨⟨[], 0⟩, pop_events 1 s.top, none⟩,
      by simp [Undo_call, get_stack, rollback_impl, h1, Reply.of_outcome],
      by simp [Consistent], by simp⟩
  | commit_to sp =>
    obtain ⟨s1, ev, h1, h2, h3, -, -⟩ := while_count_consistent 0 sp fuel s hc (by omega)
    exact ⟨⟨s1, ev, none⟩,
      by simp [Undo_call, get_stack, commit_to_impl, h1, Reply.of_outcome], h2,
      by simp only; omega⟩
  | commit =>
    have h1 := while_top_consistent 0 fuel s hc hf
    exact ⟨⟨⟨[], 0⟩, pop_events 0 s.top, none⟩,
      by simp [Undo_call, get_stack, commit_impl, h1, Reply.of_outcome],
      by simp [Consistent], by simp⟩

theorem run_thread_consistent (fuel : Nat) (lib : Libc) (hm : lib.malloc_ok = true) :
    ∀ (ops : List Op) (s : undo_stack_t), Consistent s →
      s.count + ops.length < SIZE_MOD → s.count + ops.length ≤ fuel →
      ∃ s1 recs, run_thread fuel lib ops (some s) = .ok (some s1, recs) ∧ Consistent s1 := by
  intro ops
  induction ops with
  | nil =>
    intro s hc _ _
    exact ⟨s, [], rfl, hc⟩
  | cons op rest ih =>
    intro s hc hb hf
    simp only [List.length_cons] at hb hf
    obtain ⟨r, hr, hrc, hrn⟩ :=
      Undo_call_consistent fuel lib hm s op hc (by omega) (by omega)
    obtain ⟨s1, recs, hrun, hs1⟩ := ih r.stack hrc (by omega) (by omega)
    exact ⟨s1, (r.events, r.value) :: recs, by simp only [run_thread, hr, hrun], hs1⟩

theorem while_count_compose (td : Int) (s : undo_stack_t) (sp1 sp2 : Nat) (h12 : sp1 ≤ sp2)
    (hc : Consistent s) (fuel : Nat) (hf : s.count ≤ fuel) :
    and_then (while_count td sp2 fuel s) (while_count td sp1 fuel)
      = while_count td sp1 fuel s := by
  have hc2 : s.count = s.top.length := hc
  by_cases hsp : sp2 < s.count
  · have h1 := while_count_eq td sp2 fuel s (by omega) (by omega) (by omega)
    have h2 := while_count_eq td sp1 fuel ⟨s.top.drop (s.count - sp2), sp2⟩ h12
      (by simp only [List.length_drop]; omega) (by simp only; omega)
    have h3 := while_count_eq td sp1 fuel s (by omega) (by omega) (by omega)
    have hk : s.count - sp1 = (s.count - sp2) + (sp2 - sp1) := by omega
    simp only [List.drop_drop] at h2
    rw [h3, hk, List.take_add, pop_events_append]
    simp only [and_then, h1, h2]
  · have h1 := while_count_stop td sp2 fuel s (by omega)
    cases h : while_count td sp1 fuel s with
    | error e => simp [and_then, h1, h]
    | ok q => simp [and_then, h1, h]

/-! ## Lemmas on the shared memory -/

theorem Undo_call_some (fuel : Nat) (lib : Libc) (op : Op) (s : undo_stack_t) :
    Undo_call fuel lib op (some s) = exec_op fuel lib op s := by
  cases op <;> rfl

theorem Undo_call_none (fuel : Nat) (lib : Libc) (op : Op) :
    Undo_call fuel lib op none
      = if lib.calloc_ok = true ∧ lib.setspecific_ok = true
          then exec_op fuel lib op ⟨[], 0⟩ else .error .aborted := by
  by_cases hc : lib.calloc_ok = true <;> by_cases hs : lib.setspecific_ok = true <;>
    cases op <;> simp [Undo_call, get_stack, exec_op, hc, hs]

theorem pthread_once_idem (kc : Bool) (M : Memory) :
    pthread_once kc (pthread_once kc M) = pthread_once kc M := by
  by_cases h : M.key_once = true
  · simp [pthread_once, h]
  · simp [pthread_once, h]

theorem Undo_call_shared_once (fuel : Nat) (lib : Libc) (kc : Bool) (tid : Nat) (op : Op)
    (M : Memory) :
    Undo_call_shared fuel lib kc tid op (pthread_once kc M)
      = Undo_call_shared fuel lib kc tid op M := by
  simp only [Undo_call_shared, get_stack_shared, pthread_once_idem]

theorem pthread_once_sound (M : Memory) (h : Sound M) :
    Sound (pthread_once true M) ∧ (pthread_once true M).key_once = true
      ∧ ∀ t, log_of (pthread_once true M) t = log_of M t := by
  by_cases hk : M.key_once = true
  · have hM : pthread_once true M = M := by simp [pthread_once, hk]
    rw [hM]
    exact ⟨h, hk, fun _ => rfl⟩
  · have hk2 : M.key_once = false := by simpa using hk
    refine ⟨?_, ?_, ?_⟩
    · intro _
      simp [pthread_once, hk2, make_key]
    · simp [pthread_once, hk2]
    · intro t
      simp [log_of, pthread_once, hk2, make_key, pthread_getspecific]

theorem get_stack_shared_live (lib : Libc) (tid : Nat) (M : Memory)
    (hk : M.key_once = true) (hkey : M.key < M.keys) (ha : M.tsd tid M.key ≠ 0) :
    get_stack_shared lib true tid M = .ok (M.tsd tid M.key, M) := by
  simp [get_stack_shared, pthread_once, hk, pthread_getspecific, hkey, ha]

theorem get_stack_shared_fresh (lib : Libc) (tid : Nat) (M : Memory)
    (hk : M.key_once = true) (hkey : M.key < M.keys) (ha : M.tsd tid M.key = 0)
    (hc : lib.calloc_ok = true) (hs : lib.setspecific_ok = true) :
    get_stack_shared lib true tid M
      = .ok (M.brk + 1,
          { M with
              heap := fun a => if a = M.brk + 1 then some { top := [], count := 0 }
                else M.heap a,
              brk := M.brk + 1,
              tsd := fun t k => if t = tid ∧ k = M.key then M.brk + 1 else M.tsd t k }) := by
  simp [get_stack_shared, pthread_once, hk, pthread_getspecific, hkey, ha, hc, hs,
    pthread_setspecific, calloc_stack]

theorem get_stack_shared_abort (lib : Libc) (tid : Nat) (M : Memory)
    (hk : M.key_once = true) (hkey : M.key < M.keys) (ha : M.tsd tid M.key = 0)
    (hlib : ¬ (lib.calloc_ok = true ∧ lib.setspecific_ok = true)) :
    get_stack_shared lib true tid M = .error .aborted := by
  by_cases hc : lib.calloc_ok = true
  · have hs : lib.setspecific_ok = false := by
      cases h : lib.setspecific_ok
      · rfl
      · exact absurd ⟨hc, h⟩ hlib
    simp [get_stack_shared, pthread_once, hk, pthread_getspecific, hkey, ha, hc, hs,
      pthread_setspecific]
  · simp [get_stack_shared, pthread_once, hk, pthread_getspecific, hkey, ha, hc]

theorem log_of_eq (M : Memory) (hk : M.key_once = true) (hkey : M.key < M.keys) (t : Nat) :
    log_of M t = if M.tsd t M.key = 0 then none else M.heap (M.tsd t M.key) := by
  simp [log_of, hk, pthread_getspecific, hkey]

theorem Undo_call_shared_step (fuel : Nat) (lib : Libc) (tid : Nat) (op : Op) (M : Memory)
    (hk : M.key_once = true) (h : Sound M) :
    (∀ e, Undo_call fuel lib op (log_of M tid) = .error e →
        Undo_call_shared fuel lib true tid op M = .error e)
      ∧ (∀ r, Undo_call fuel lib op (log_of M tid) = .ok r →
          ∃ M1, Undo_call_shared fuel lib true tid op M = .ok (M1, r.events, r.value)
            ∧ Sound M1 ∧ M1.key_once = true ∧ log_of M1 tid = some r.stack
            ∧ ∀ t, t ≠ tid → log_of M1 t = log_of M t) := by
  obtain ⟨hkey, hlive, hinj⟩ := h hk
  by_cases ha : M.tsd tid M.key = 0
  · -- the thread has no log yet
    have hl : log_of M tid = none := by rw [log_of_eq M hk hkey]; simp [ha]
    rw [hl, Undo_call_none]
    by_cases hlib : lib.calloc_ok = true ∧ lib.setspecific_ok = true
    · have hg := get_stack_shared_fresh lib tid M hk hkey ha hlib.1 hlib.2
      simp only [hlib, and_self, if_true]
      refine ⟨?_, ?_⟩
      · intro e he
        simp [Undo_call_shared, hg, he]
      · intro r hr
        have hcall : Undo_call_shared fuel lib true tid op M
            = .ok ({ M with
                tsd := fun t k => if t = tid ∧ k = M.key then M.brk + 1 else M.tsd t k,
                heap := fun a => if a = M.brk + 1 then some r.stack
                  else if a = M.brk + 1 then some { top := [], count := 0 } else M.heap a,
                brk := M.brk + 1 }, r.events, r.value) := by
          simp only [Undo_call_shared, hg, if_true, hr]
        refine ⟨_, hcall, ?_, hk, ?_, ?_⟩
        · intro _
          refine ⟨hkey, ?_, ?_⟩
          · intro t ht
            by_cases htt : t = tid
            · subst htt
              simp
            · simp only [htt, false_and, if_false] at ht ⊢
              obtain ⟨hle, s0, hs0⟩ := hlive t ht
              have hne : M.tsd t M.key ≠ M.brk + 1 := by omega
              exact ⟨by omega, s0, by simp [hne, hs0]⟩
          · intro t1 t2 h1 h12
            by_cases e1 : t1 = tid <;> by_cases e2 : t2 = tid
            · rw [e1, e2]
            · simp only [e1, e2, true_and, false_and, if_true, if_false] at h12
              by_cases hz : M.tsd t2 M.key = 0
              · omega
              · have := (hlive t2 hz).1
                omega
            · simp only [e1, e2, true_and, false_and, if_true, if_false] at h1 h12
              have := (hlive t1 h1).1
              omega
            · simp only [e1, e2, false_and, if_false] at h1 h12
              exact hinj t1 t2 h1 h12
        · simp [log_of, hk, pthread_getspecific, hkey]
        · intro t ht
          rw [log_of_eq M hk hkey t]
          simp only [log_of, hk, pthread_getspecific, hkey, if_true, ht, false_and, if_false]
          by_cases hz : M.tsd t M.key = 0
          · simp [hz]
          · have := (hlive t hz).1
            have hne : M.tsd t M.key ≠ M.brk + 1 := by omega
            simp [hz, hne]
    · have hg := get_stack_shared_abort lib tid M hk hkey ha hlib
      simp only [hlib, if_false]
      refine ⟨?_, ?_⟩
      · intro e he
        simp only [Except.error.injEq] at he
        simp [Undo_call_shared, hg, he]
      · intro r hr
        cases hr
  · -- the thread has its log
    obtain ⟨hle, s0, hs0⟩ := hlive tid ha
    have hl : log_of M tid = some s0 := by rw [log_of_eq M hk hkey]; simp [ha, hs0]
    have hg := get_stack_shared_live lib tid M hk hkey ha
    rw [hl, Undo_call_some]
    refine ⟨?_, ?_⟩
    · intro e he
      simp [Undo_call_shared, hg, hs0, he]
    · intro r hr
      have hcall : Undo_call_shared fuel lib true tid op M
          = .ok ({ M with
              heap := fun a => if a = M.tsd tid M.key then some r.stack else M.heap a },
              r.events, r.value) := by
        simp only [Undo_call_shared, hg, hs0, hr]
      refine ⟨_, hcall, ?_, hk, ?_, ?_⟩
      · intro _
        refine ⟨hkey, ?_, hinj⟩
        intro t ht
        obtain ⟨hle2, s2, hs2⟩ := hlive t ht
        refine ⟨hle2, ?_⟩
        by_cases hsame : M.tsd t M.key = M.tsd tid M.key
        · exact ⟨r.stack, by simp [hsame]⟩
        · exact ⟨s2, by simp [hsame, hs2]⟩
      · simp [log_of, hk, pthread_getspecific, hkey, ha]
      · intro t ht
        rw [log_of_eq M hk hkey t]
        simp only [log_of, hk, pthread_getspecific, hkey, if_true]
        by_cases hz : M.tsd t M.key = 0
        · simp [hz]
        · have hne : M.tsd t M.key ≠ M.tsd tid M.key := by
            intro heq
            exact ht (hinj t tid hz heq)
          simp [hz, hne]

theorem Undo_call_shared_sound (fuel : Nat) (lib : Libc) (tid : Nat) (op : Op) (M : Memory)
    (h : Sound M) :
    (∀ e, Undo_call fuel lib op (log_of M tid) = .error e →
        Undo_call_shared fuel lib true tid op M = .error e)
      ∧ (∀ r, Undo_call fuel lib op (log_of M tid) = .ok r →
          ∃ M1, Undo_call_shared fuel lib true tid op M = .ok (M1, r.events, r.value)
            ∧ Sound M1 ∧ M1.key_once = true ∧ log_of M1 tid = some r.stack
            ∧ ∀ t, t ≠ tid → log_of M1 t = log_of M t) := by
  obtain ⟨hs0, hk0, hlog0⟩ := pthread_once_sound M h
  have hstep := Undo_call_shared_step fuel lib tid op (pthread_once true M) hk0 hs0
  rw [Undo_call_shared_once, hlog0] at hstep
  refine ⟨hstep.1, ?_⟩
  intro r hr
  obtain ⟨M1, h1, h2, h3, h4, h5⟩ := hstep.2 r hr
  exact ⟨M1, h1, h2, h3, h4, fun t ht => (h5 t ht).trans (hlog0 t)⟩

theorem run_shared_project (fuel : Nat) (lib : Libc) (A : Nat) :
    ∀ (sched : List (Nat × Op)) (M M1 : Memory)
      (recs : List (Nat × List Event × Option Nat)), Sound M →
      run_shared fuel lib true sched M = .ok (M1, recs) →
      run_thread fuel lib (calls_from A sched) (log_of M A)
        = .ok (log_of M1 A, records_from A recs) := by
  intro sched
  induction sched with
  | nil =>
    intro M M1 recs _ h
    simp only [run_shared, Except.ok.injEq, Prod.mk.injEq] at h
    rw [← h.1, ← h.2]
    rfl
  | cons c rest ih =>
    intro M M1 recs hM h
    obtain ⟨tid, op⟩ := c
    obtain ⟨herr, hok⟩ := Undo_call_shared_sound fuel lib tid op M hM
    simp only [run_shared] at h
    cases hU : Undo_call fuel lib op (log_of M tid) with
    | error e => simp [herr e hU] at h
    | ok r =>
      obtain ⟨M2, hcall, hM2, -, hown, hframe⟩ := hok r hU
      simp only [hcall] at h
      cases hrest : run_shared fuel lib true rest M2 with
      | error e => simp [hrest] at h
      | ok q =>
        obtain ⟨M3, recs3⟩ := q
        simp only [hrest, Except.ok.injEq, Prod.mk.injEq] at h
        have hind := ih M2 M3 recs3 hM2 hrest
        rw [← h.1, ← h.2]
        by_cases hA : tid = A
        · subst hA
          rw [hown] at hind
          simp only [calls_from, records_from, List.filter_cons, decide_True, if_true,
            List.map_cons, run_thread, hU] at hind ⊢
          rw [hind]
        · rw [hframe A (Ne.symm hA)] at hind
          simp only [calls_from, records_from, List.filter_cons, hA, decide_False,
            Bool.false_eq_true, if_false] at hind ⊢
          exact hind

theorem run_shared_returns (fuel : Nat) (lib : Libc) (hc : lib.calloc_ok = true)
    (hs : lib.setspecific_ok = true) (hm : lib.malloc_ok = true) :
    ∀ (sched : List (Nat × Op)) (M : Memory), Sound M →
      sched.length < SIZE_MOD → sched.length ≤ fuel →
      (∀ t s, log_of M t = some s →
        Consistent s ∧ s.count + sched.length < SIZE_MOD ∧ s.count + sched.length ≤ fuel) →
      ∃ M1 recs, run_shared fuel lib true sched M = .ok (M1, recs) := by
  intro sched
  induction sched with
  | nil =>
    intro M _ _ _ _
    exact ⟨M, [], rfl⟩
  | cons c rest ih =>
    intro M hM hb hf hlogs
    obtain ⟨tid, op⟩ := c
    simp only [List.length_cons] at hb hf hlogs
    obtain ⟨-, hok⟩ := Undo_call_shared_sound fuel lib tid op M hM
    -- the call returns on the thread's own log, which stays consistent
    have hret : ∃ r, Undo_call fuel lib op (log_of M tid) = .ok r ∧ Consistent r.stack
        ∧ r.stack.count + rest.length < SIZE_MOD ∧ r.stack.count + rest.length ≤ fuel := by
      cases hl : log_of M tid with
      | none =>
        have hsame : Undo_call fuel lib op none = Undo_call fuel lib op (some empty) := by
          rw [Undo_call_none, Undo_call_some]
          simp [hc, hs, empty]
        obtain ⟨r, hr, hrc, hrn⟩ := Undo_call_consistent fuel lib hm empty op rfl
          (by simp only [empty]; omega) (by simp only [empty]; omega)
        simp only [empty] at hrn
        exact ⟨r, hsame.trans hr, hrc, by omega, by omega⟩
      | some s =>
        obtain ⟨h1, h2, h3⟩ := hlogs tid s hl
        obtain ⟨r, hr, hrc, hrn⟩ := Undo_call_consistent fuel lib hm s op h1
          (by omega) (by omega)
        exact ⟨r, hr, hrc, by omega, by omega⟩
    obtain ⟨r, hr, hrc, hrb, hrf⟩ := hret
    obtain ⟨M2, hcall, hM2, -, hown, hframe⟩ := hok r hr
    have hlogs2 : ∀ t s, log_of M2 t = some s →
        Consistent s ∧ s.count + rest.length < SIZE_MOD ∧ s.count + rest.length ≤ fuel := by
      intro t s hts
      by_cases ht : t = tid
      · subst ht
        rw [hown] at hts
        cases hts
        exact ⟨hrc, hrb, hrf⟩
      · rw [hframe t ht] at hts
        obtain ⟨h1, h2, h3⟩ := hlogs t s hts
        exact ⟨h1, by omega, by omega⟩
    obtain ⟨M3, recs, hrun⟩ := ih M2 hM2 (by omega) (by omega) hlogs2
    exact ⟨M3, (tid, r.events, r.value) :: recs, by simp only [run_shared, hcall, hrun]⟩

theorem log_of_before_key (M : Memory) (h : M.key_once = false) (t : Nat) :
    log_of M t = none := by
  simp [log_of, h]

theorem sound_before_key (M : Memory) (h : M.key_once = false) : Sound M := by
  intro hk
  rw [h] at hk
  cases hk

theorem run_shared_sound (fuel : Nat) (lib : Libc) :
    ∀ (sched : List (Nat × Op)) (M M1 : Memory)
      (recs : List (Nat × List Event × Option Nat)), Sound M →
      run_shared fuel lib true sched M = .ok (M1, recs) → Sound M1 := by
  intro sched
  induction sched with
  | nil =>
    intro M M1 recs hM h
    simp only [run_shared, Except.ok.injEq, Prod.mk.injEq] at h
    rw [← h.1]
    exact hM
  | cons c rest ih =>
    intro M M1 recs hM h
    obtain ⟨tid, op⟩ := c
    obtain ⟨herr, hok⟩ := Undo_call_shared_sound fuel lib tid op M hM
    simp only [run_shared] at h
    cases hU : Undo_call fuel lib op (log_of M tid) with
    | error e => simp [herr e hU] at h
    | ok r =>
      obtain ⟨M2, hcall, hM2, -, -, -⟩ := hok r hU
      simp only [hcall] at h
      cases hrest : run_shared fuel lib true rest M2 with
      | error e => simp [hrest] at h
      | ok q =>
        obtain ⟨M3, recs3⟩ := q
        simp only [hrest, Except.ok.injEq, Prod.mk.injEq] at h
        rw [← h.1]
        exact ih M2 M3 recs3 hM2 hrest

theorem run_shared_error (fuel : Nat) (lib : Libc) (e : Halt) :
    ∀ (sched : List (Nat × Op)) (M : Memory), Sound M →
      run_shared fuel lib true sched M = .error e →
      ∃ A, run_thread fuel lib (calls_from A sched) (log_of M A) = .error e := by
  intro sched
  induction sched with
  | nil =>
    intro M _ h
    simp [run_shared] at h
  | cons c rest ih =>
    intro M hM h
    obtain ⟨tid, op⟩ := c
    obtain ⟨herr, hok⟩ := Undo_call_shared_sound fuel lib tid op M hM
    simp only [run_shared] at h
    cases hU : Undo_call fuel lib op (log_of M tid) with
    | error e1 =>
      rw [herr e1 hU] at h
      simp only [Except.error.injEq] at h
      refine ⟨tid, ?_⟩
      simp only [calls_from, List.filter_cons, decide_True, if_true, List.map_cons,
        run_thread, hU, h]
    | ok r =>
      obtain ⟨M2, hcall, hM2, -, hown, hframe⟩ := hok r hU
      simp only [hcall] at h
      cases hrest : run_shared fuel lib true rest M2 with
      | ok q => simp [hrest] at h
      | error e2 =>
        simp only [hrest, Except.error.injEq] at h
        subst h
        obtain ⟨A, hA⟩ := ih M2 hM2 hrest
        refine ⟨A, ?_⟩
        by_cases htA : tid = A
        · subst htA
          rw [hown] at hA
          simp only [calls_from, List.filter_cons, decide_True, if_true, List.map_cons,
            run_thread, hU] at hA ⊢
          rw [hA]
        · rw [hframe A (Ne.symm htA)] at hA
          simp only [calls_from, List.filter_cons, htA, decide_False, Bool.false_eq_true,
            if_false] at hA ⊢
          exact hA

/-! ## The claims -/

/-- C1: from the empty log, any run of `push` calls (within the range of `size_t`)
followed by `rollback()` returns, pops every pushed action most recent first,
invokes exactly those with a non-null undo function and non-null context data,
once each with its own context data and in reverse order of pushing, and
leaves `top = NULL`, `count = 0`. -/
theorem rollback_after_pushes (acts : List (Nat × Nat)) (hbound : acts.length < SIZE_MOD)
    (fuel : Nat) (hfuel : acts.length ≤ fuel) :
    ∃ ev, rollback_impl fuel (push_all acts empty) = .ok (⟨[], 0⟩, ev)
      ∧ invocations ev = acts.reverse.filter (fun a => a.1 ≠ 0 ∧ a.2 ≠ 0)
      ∧ released ev = acts.reverse.map (fun a => ⟨a.1, a.2⟩) := by
  have htop := push_all_top acts empty
  have hcount := push_all_count acts empty (by simpa [empty] using hbound)
  simp only [empty, List.append_nil, Nat.zero_add] at htop hcount
  have hloop := while_top_eq 1 fuel (push_all acts ⟨[], 0⟩)
    (by simp [htop, hcount]) (by simpa [htop] using hfuel)
  refine ⟨pop_events 1 (push_all acts ⟨[], 0⟩).top, ?_, ?_, ?_⟩
  · simp only [rollback_impl, empty, hloop]
  · rw [invocations_pop_events_rollback, htop, calls_of_pushed]
  · rw [released_pop_events, htop]

/-- Witness of C1 on three pushes, the second with a null undo function. -/
theorem rollback_after_pushes_witness :
    ∃ ev, rollback_impl 3 (push_all [(1, 2), (0, 3), (4, 5)] empty) = .ok (⟨[], 0⟩, ev)
      ∧ invocations ev = [(4, 5), (1, 2)]
      ∧ released ev = [⟨4, 5⟩, ⟨0, 3⟩, ⟨1, 2⟩] :=
  rollback_after_pushes [(1, 2), (0, 3), (4, 5)] (by decide) 3 (by decide)

/-- C2: on a log whose depth `d` is the length of its chain, with `sp < d`,
`rollbackTo(sp)` returns, pops exactly the `d - sp` topmost actions, invokes
those of them with both fields non-null, top to bottom, and nothing else, and
leaves the `sp` bottom actions as they were, with `count = sp`. -/
theorem rollback_to_pops (s : undo_stack_t) (sp : Nat) (hc : Consistent s)
    (hsp : sp < s.count) (fuel : Nat) (hfuel : s.count - sp ≤ fuel) :
    ∃ popped kept ev, s.top = popped ++ kept
      ∧ popped.length = s.count - sp ∧ kept.length = sp
      ∧ rollback_to_impl sp fuel s = .ok (⟨kept, sp⟩, ev)
      ∧ released ev = popped
      ∧ invocations ev = calls_of popped := by
  have hc2 : s.count = s.top.length := hc
  refine ⟨s.top.take (s.count - sp), s.top.drop (s.count - sp),
    pop_events 1 (s.top.take (s.count - sp)), ?_, ?_, ?_, ?_, ?_, ?_⟩
  · exact (List.take_append_drop _ _).symm
  · simp only [List.length_take]; omega
  · simp only [List.length_drop]; omega
  · exact while_count_eq 1 sp fuel s (by omega) (by omega) hfuel
  · exact released_pop_events 1 _
  · exact invocations_pop_events_rollback _

/-- Witness of C2: depth 3, savepoint 1. -/
theorem rollback_to_pops_witness :
    ∃ popped kept ev, [(⟨4, 5⟩ : undo_action_t), ⟨0, 3⟩, ⟨1, 2⟩] = popped ++ kept
      ∧ popped.length = 3 - 1 ∧ kept.length = 1
      ∧ rollback_to_impl 1 2 ⟨[⟨4, 5⟩, ⟨0, 3⟩, ⟨1, 2⟩], 3⟩ = .ok (⟨kept, 1⟩, ev)
      ∧ released ev = popped
      ∧ invocations ev = calls_of popped :=
  rollback_to_pops ⟨[⟨4, 5⟩, ⟨0, 3⟩, ⟨1, 2⟩], 3⟩ 1 (by decide) (by decide) 2 (by decide)

/-- C3: on any log `L`, `sp = mark()` followed by any run of `push` calls (within
the range of `size_t`) and `rollbackTo(sp)` returns with the log equal to `L`,
having popped exactly the actions pushed after the mark and invoked exactly
those of them with both fields non-null, in reverse order of pushing; and
`sp1 = mark(); push(a); sp2 = mark(); push(b); rollbackTo(sp1)` with `a`, `b`
non-null in both fields invokes `[b, a]` and ends on `L`, at depth `sp1`. -/
theorem mark_then_rollback_to (L : undo_stack_t) (acts : List (Nat × Nat))
    (hbound : L.count + acts.length < SIZE_MOD) (fuel : Nat) (hfuel : acts.length ≤ fuel) :
    (∃ ev, rollback_to_impl (mark_impl L) fuel (push_all acts L) = .ok (L, ev)
      ∧ invocations ev = acts.reverse.filter (fun a => a.1 ≠ 0 ∧ a.2 ≠ 0)
      ∧ released ev = acts.reverse.map (fun a => ⟨a.1, a.2⟩))
    ∧ (∀ a b : Nat × Nat, a.1 ≠ 0 → a.2 ≠ 0 → b.1 ≠ 0 → b.2 ≠ 0 →
        L.count + 2 < SIZE_MOD → 2 ≤ fuel →
        ∃ ev, nested_marks a b fuel L = .ok (⟨L.top, mark_impl L⟩, ev)
          ∧ invocations ev = [b, a]) := by
  have key : ∀ (l : List (Nat × Nat)), L.count + l.length < SIZE_MOD → l.length ≤ fuel →
      ∃ ev, rollback_to_impl (mark_impl L) fuel (push_all l L) = .ok (L, ev)
        ∧ invocations ev = l.reverse.filter (fun a => a.1 ≠ 0 ∧ a.2 ≠ 0)
        ∧ released ev = l.reverse.map (fun a => ⟨a.1, a.2⟩) := by
    intro l hb hf
    have htop := push_all_top l L
    have hcount := push_all_count l L hb
    have hsub : (push_all l L).count - L.count = l.length := by omega
    have hloop := while_count_eq 1 L.count fuel (push_all l L) (by omega)
      (by rw [hsub, htop]; simp) (by omega)
    rw [hsub, htop] at hloop
    have hdrop : List.drop l.length
        ((l.reverse.map fun a => (⟨a.1, a.2⟩ : undo_action_t)) ++ L.top) = L.top := by
      rw [List.drop_append_of_le_length (by simp)]
      simp
    have htake : List.take l.length
        ((l.reverse.map fun a => (⟨a.1, a.2⟩ : undo_action_t)) ++ L.top)
          = l.reverse.map fun a => (⟨a.1, a.2⟩ : undo_action_t) := by
      rw [List.take_append_of_le_length (by simp)]
      simp
    rw [hdrop, htake] at hloop
    refine ⟨_, hloop, ?_, ?_⟩
    · rw [invocations_pop_events_rollback, calls_of_pushed]
    · rw [released_pop_events]
  refine ⟨key acts hbound hfuel, ?_⟩
  intro a b ha1 ha2 hb1 hb2 hb hf
  obtain ⟨ev, hrun, hinv, -⟩ := key [a, b] (by simpa using hb) (by simpa using hf)
  refine ⟨ev, hrun, ?_⟩
  rw [hinv]
  simp [List.filter_cons, ha1, ha2, hb1, hb2]

/-- Witness of C3: a log of depth 1, two pushes after the mark. -/
theorem mark_then_rollback_to_witness :
    (∃ ev, rollback_to_impl (mark_impl ⟨[⟨7, 8⟩], 1⟩) 2
        (push_all [(1, 2), (3, 0)] ⟨[⟨7, 8⟩], 1⟩) = .ok (⟨[⟨7, 8⟩], 1⟩, ev)
      ∧ invocations ev = [(1, 2)]
      ∧ released ev = [⟨3, 0⟩, ⟨1, 2⟩])
    ∧ (∃ ev, nested_marks (1, 2) (3, 4) 2 ⟨[⟨7, 8⟩], 1⟩ = .ok (⟨[⟨7, 8⟩], 1⟩, ev)
      ∧ invocations ev = [(3, 4), (1, 2)]) :=
  ⟨(mark_then_rollback_to ⟨[⟨7, 8⟩], 1⟩ [(1, 2), (3, 0)] (by decide) 2 (by decide)).1,
   (mark_then_rollback_to ⟨[⟨7, 8⟩], 1⟩ [(1, 2), (3, 0)] (by decide) 2 (by decide)).2
      (1, 2) (3, 4) (by decide) (by decide) (by decide) (by decide) (by decide) (by decide)⟩

/-- C4: on a log whose depth `d` is the length of its chain, with `sp < d`,
`commitTo(sp)` returns, pops exactly the `d - sp` topmost actions, invokes no
undo function, and leaves the `sp` bottom actions as they were, with
`count = sp`. -/
theorem commit_to_pops (s : undo_stack_t) (sp : Nat) (hc : Consistent s)
    (hsp : sp < s.count) (fuel : Nat) (hfuel : s.count - sp ≤ fuel) :
    ∃ popped kept ev, s.top = popped ++ kept
      ∧ popped.length = s.count - sp ∧ kept.length = sp
      ∧ commit_to_impl sp fuel s = .ok (⟨kept, sp⟩, ev)
      ∧ released ev = popped
      ∧ invocations ev = [] := by
  have hc2 : s.count = s.top.length := hc
  refine ⟨s.top.take (s.count - sp), s.top.drop (s.count - sp),
    pop_events 0 (s.top.take (s.count - sp)), ?_, ?_, ?_, ?_, ?_, ?_⟩
  · exact (List.take_append_drop _ _).symm
  · simp only [List.length_take]; omega
  · simp only [List.length_drop]; omega
  · exact while_count_eq 0 sp fuel s (by omega) (by omega) hfuel
  · exact released_pop_events 0 _
  · exact invocations_pop_events_commit _

/-- Witness of C4: depth 3, savepoint 1. -/
theorem commit_to_pops_witness :
    ∃ popped kept ev, [(⟨4, 5⟩ : undo_action_t), ⟨0, 3⟩, ⟨1, 2⟩] = popped ++ kept
      ∧ popped.length = 3 - 1 ∧ kept.length = 1
      ∧ commit_to_impl 1 2 ⟨[⟨4, 5⟩, ⟨0, 3⟩, ⟨1, 2⟩], 3⟩ = .ok (⟨kept, 1⟩, ev)
      ∧ released ev = popped
      ∧ invocations ev = [] :=
  commit_to_pops ⟨[⟨4, 5⟩, ⟨0, 3⟩, ⟨1, 2⟩], 3⟩ 1 (by decide) (by decide) 2 (by decide)

/-- C5: from the empty log, any run of `push` calls (within the range of `size_t`)
followed by `commit()` returns, pops every pushed action, invokes nothing
whatever the fields of the actions are, and leaves `top = NULL`, `count = 0`. -/
theorem commit_after_pushes (acts : List (Nat × Nat)) (hbound : acts.length < SIZE_MOD)
    (fuel : Nat) (hfuel : acts.length ≤ fuel) :
    ∃ ev, commit_impl fuel (push_all acts empty) = .ok (⟨[], 0⟩, ev)
      ∧ invocations ev = []
      ∧ released ev = acts.reverse.map (fun a => ⟨a.1, a.2⟩) := by
  have htop := push_all_top acts empty
  have hcount := push_all_count acts empty (by simpa [empty] using hbound)
  simp only [empty, List.append_nil, Nat.zero_add] at htop hcount
  have hloop := while_top_eq 0 fuel (push_all acts ⟨[], 0⟩)
    (by simp [htop, hcount]) (by simpa [htop] using hfuel)
  refine ⟨pop_events 0 (push_all acts ⟨[], 0⟩).top, ?_, ?_, ?_⟩
  · simp only [commit_impl, empty, hloop]
  · rw [invocations_pop_events_commit]
  · rw [released_pop_events, htop]

/-- Witness of C5 on three pushes. -/
theorem commit_after_pushes_witness :
    ∃ ev, commit_impl 3 (push_all [(1, 2), (0, 3), (4, 5)] empty) = .ok (⟨[], 0⟩, ev)
      ∧ invocations ev = []
      ∧ released ev = [⟨4, 5⟩, ⟨0, 3⟩, ⟨1, 2⟩] :=
  commit_after_pushes [(1, 2), (0, 3), (4, 5)] (by decide) 3 (by decide)

/-- C6: on a log whose depth `d` is the length of its chain, `commitTo(sp)`
followed at once by `rollbackTo(0)` returns with an empty log, pops every
action, and invokes exactly the actions with both fields non-null among the
bottom `min(d, sp)` ones, most recent first, none of those above `sp`; and
`push(f1,c1); push(f2,c2); sp = mark(); push(f3,c3); commitTo(sp); rollback()`
on a fresh log invokes `f2(c2)` then `f1(c1)` and not `f3`. -/
theorem commit_to_then_rollback (s : undo_stack_t) (sp : Nat) (hc : Consistent s)
    (fuel : Nat) (hfuel : s.count ≤ fuel) :
    (∃ ev, and_then (commit_to_impl sp fuel s) (rollback_to_impl 0 fuel) = .ok (⟨[], 0⟩, ev)
      ∧ invocations ev = calls_of (s.top.drop (s.count - min s.count sp))
      ∧ released ev = s.top)
    ∧ (∀ a1 a2 a3 : Nat × Nat, a1.1 ≠ 0 → a1.2 ≠ 0 → a2.1 ≠ 0 → a2.2 ≠ 0 → 3 ≤ fuel →
        ∃ ev, commit_to_scenario a1 a2 a3 fuel = .ok (⟨[], 0⟩, ev)
          ∧ invocations ev = [a2, a1]
          ∧ released ev = [⟨a3.1, a3.2⟩, ⟨a2.1, a2.2⟩, ⟨a1.1, a1.2⟩]) := by
  have hc2 : s.count = s.top.length := hc
  constructor
  · by_cases hsp : sp < s.count
    · have h1 := while_count_eq 0 sp fuel s (by omega) (by omega) (by omega)
      have h2 := while_count_drain 1 fuel (s.top.drop (s.count - sp)) sp
        (by simp only [List.length_drop]; omega) (by omega)
      refine ⟨pop_events 0 (s.top.take (s.count - sp))
        ++ pop_events 1 (s.top.drop (s.count - sp)), ?_, ?_, ?_⟩
      · simp only [and_then, commit_to_impl, rollback_to_impl, h1, h2]
      · rw [invocations_append, invocations_pop_events_commit,
          invocations_pop_events_rollback, Nat.min_eq_right (by omega)]
        rfl
      · rw [released_append, released_pop_events, released_pop_events,
          List.take_append_drop]
    · have h1 := while_count_stop 0 sp fuel s (by omega)
      have h2 := while_count_drain 1 fuel s.top s.count hc2 hfuel
      refine ⟨[] ++ pop_events 1 s.top, ?_, ?_, ?_⟩
      · simp only [and_then, commit_to_impl, rollback_to_impl, h1]
        have hs : s = ⟨s.top, s.count⟩ := rfl
        rw [hs, h2]
      · rw [List.nil_append, invocations_pop_events_rollback, Nat.min_eq_left (by omega),
          Nat.sub_self, List.drop_zero]
      · rw [List.nil_append, released_pop_events]
  · intro a1 a2 a3 h11 h12 h21 h22 hf
    have hs3 : push_impl a3.1 a3.2 (push_impl a2.1 a2.2 (push_impl a1.1 a1.2 empty))
        = ⟨[⟨a3.1, a3.2⟩, ⟨a2.1, a2.2⟩, ⟨a1.1, a1.2⟩], 3⟩ := by
      simp [push_impl, empty, SIZE_MOD]
    have hsp : mark_impl (push_impl a2.1 a2.2 (push_impl a1.1 a1.2 empty)) = 2 := by
      simp [mark_impl, push_impl, empty, SIZE_MOD]
    have h1 := while_count_eq 0 2 fuel ⟨[⟨a3.1, a3.2⟩, ⟨a2.1, a2.2⟩, ⟨a1.1, a1.2⟩], 3⟩
      (by simp) (by simp) (by simp only; omega)
    have h2 := while_top_eq 1 fuel ⟨[⟨a2.1, a2.2⟩, ⟨a1.1, a1.2⟩], 2⟩
      (by simp) (by simp only [List.length_cons, List.length_nil]; omega)
    simp only [Nat.reduceSub, List.drop_succ_cons, List.drop_zero, List.take_succ_cons,
      List.take_zero] at h1
    refine ⟨pop_events 0 [⟨a3.1, a3.2⟩]
      ++ pop_events 1 [⟨a2.1, a2.2⟩, ⟨a1.1, a1.2⟩], ?_, ?_, ?_⟩
    · simp only [commit_to_scenario, hs3, hsp, and_then, commit_to_impl, rollback_impl, h1, h2]
    · rw [invocations_append, invocations_pop_events_commit,
        invocations_pop_events_rollback]
      have hp := calls_of_pushed [a2, a1]
      simp only [List.map_cons, List.map_nil] at hp
      rw [List.nil_append, hp]
      simp [List.filter_cons, h11, h12, h21, h22]
    · rw [released_append, released_pop_events, released_pop_events]
      rfl

/-- Witness of C6: depth 3, savepoint 2, and the scenario on a fresh log. -/
theorem commit_to_then_rollback_witness :
    (∃ ev, and_then (commit_to_impl 2 3 ⟨[⟨5, 6⟩, ⟨3, 4⟩, ⟨1, 2⟩], 3⟩) (rollback_to_impl 0 3)
        = .ok (⟨[], 0⟩, ev)
      ∧ invocations ev = [(3, 4), (1, 2)]
      ∧ released ev = [⟨5, 6⟩, ⟨3, 4⟩, ⟨1, 2⟩])
    ∧ (∃ ev, commit_to_scenario (1, 2) (3, 4) (5, 6) 3 = .ok (⟨[], 0⟩, ev)
      ∧ invocations ev = [(3, 4), (1, 2)]
      ∧ released ev = [⟨5, 6⟩, ⟨3, 4⟩, ⟨1, 2⟩]) :=
  ⟨(commit_to_then_rollback ⟨[⟨5, 6⟩, ⟨3, 4⟩, ⟨1, 2⟩], 3⟩ 2 (by decide) 3 (by decide)).1,
   (commit_to_then_rollback ⟨[⟨5, 6⟩, ⟨3, 4⟩, ⟨1, 2⟩], 3⟩ 2 (by decide) 3 (by decide)).2
      (1, 2) (3, 4) (5, 6) (by decide) (by decide) (by decide) (by decide) (by decide)⟩

/-- C7: an action popped with `to_delete = 1` is invoked exactly when its undo
function and its context data are both non-null; wherever the action `a` sits in
the chain, `rollback()` and `rollbackTo(sp)` (with `a` above `sp`) pop it, invoke
it under that condition only, and process the actions above and below it in
order as if it were not there. -/
theorem invoked_iff_both_non_null (above below : List undo_action_t) (a : undo_action_t)
    (fuel : Nat) (hfuel : above.length + 1 + below.length ≤ fuel) :
    (∀ (rest : List undo_action_t) (n : Nat), 0 < n →
      ∃ ev, remove_one ⟨a :: rest, n⟩ 1 = .ok (⟨rest, n - 1⟩, ev)
        ∧ released ev = [a]
        ∧ (invocations ev = [(a.undo, a.context)] ↔ (a.undo ≠ 0 ∧ a.context ≠ 0))
        ∧ (invocations ev = [] ↔ ¬ (a.undo ≠ 0 ∧ a.context ≠ 0)))
    ∧ (∃ ev, rollback_impl fuel ⟨above ++ a :: below, above.length + 1 + below.length⟩
          = .ok (⟨[], 0⟩, ev)
        ∧ released ev = above ++ a :: below
        ∧ invocations ev = calls_of above
            ++ (if a.undo ≠ 0 ∧ a.context ≠ 0 then [(a.undo, a.context)] else [])
            ++ calls_of below)
    ∧ (∀ sp, sp ≤ below.length →
        ∃ ev, rollback_to_impl sp fuel ⟨above ++ a :: below, above.length + 1 + below.length⟩
            = .ok (⟨below.drop (below.length - sp), sp⟩, ev)
          ∧ released ev = above ++ a :: below.take (below.length - sp)
          ∧ invocations ev = calls_of above
              ++ (if a.undo ≠ 0 ∧ a.context ≠ 0 then [(a.undo, a.context)] else [])
              ++ calls_of (below.take (below.length - sp))) := by
  refine ⟨?_, ?_, ?_⟩
  · intro rest n hn
    refine ⟨_, remove_one_cons a rest n 1 hn, ?_, ?_, ?_⟩
    · by_cases h : a.undo ≠ 0 ∧ a.context ≠ 0 <;> simp [released, h]
    · by_cases h : a.undo ≠ 0 ∧ a.context ≠ 0 <;> simp [invocations, h]
    · by_cases h : a.undo ≠ 0 ∧ a.context ≠ 0 <;> simp [invocations, h]
  · have h := while_top_eq 1 fuel ⟨above ++ a :: below, above.length + 1 + below.length⟩
      (by simp; omega) (by simp; omega)
    refine ⟨pop_events 1 (above ++ a :: below), ?_, ?_, ?_⟩
    · simp only [rollback_impl, h]
    · exact released_pop_events 1 _
    · rw [invocations_pop_events_rollback, calls_of_append, calls_of_cons, List.append_assoc]
  · intro sp hsp
    have hk : above.length + 1 + below.length - sp
        = above.length + ((below.length - sp) + 1) := by omega
    have h := while_count_eq 1 sp fuel
      ⟨above ++ a :: below, above.length + 1 + below.length⟩
      (by simp only; omega) (by simp; omega) (by simp only; omega)
    simp only [hk, List.take_append, List.drop_append, List.take_succ_cons,
      List.drop_succ_cons] at h
    refine ⟨_, h, ?_, ?_⟩
    · exact released_pop_events 1 _
    · rw [invocations_pop_events_rollback, calls_of_append, calls_of_cons, List.append_assoc]

/-- Witness of C7: a null-context action between two well-formed ones. -/
theorem invoked_iff_both_non_null_witness :
    (∃ ev, remove_one ⟨[⟨3, 0⟩], 1⟩ 1 = .ok (⟨[], 1 - 1⟩, ev)
        ∧ released ev = [⟨3, 0⟩]
        ∧ (invocations ev = [((3 : Nat), (0 : Nat))] ↔ ((3 : Nat) ≠ 0 ∧ (0 : Nat) ≠ 0))
        ∧ (invocations ev = [] ↔ ¬ ((3 : Nat) ≠ 0 ∧ (0 : Nat) ≠ 0)))
    ∧ (∃ ev, rollback_impl 3 ⟨[⟨5, 6⟩] ++ ⟨3, 0⟩ :: [⟨1, 2⟩], [(⟨5, 6⟩ : undo_action_t)].length + 1
          + [(⟨1, 2⟩ : undo_action_t)].length⟩ = .ok (⟨[], 0⟩, ev)
        ∧ released ev = [⟨5, 6⟩] ++ ⟨3, 0⟩ :: [⟨1, 2⟩]
        ∧ invocations ev = calls_of [⟨5, 6⟩]
            ++ (if (3 : Nat) ≠ 0 ∧ (0 : Nat) ≠ 0 then [((3 : Nat), (0 : Nat))] else [])
            ++ calls_of [⟨1, 2⟩])
    ∧ (∃ ev, rollback_to_impl 1 3 ⟨[⟨5, 6⟩] ++ ⟨3, 0⟩ :: [⟨1, 2⟩],
          [(⟨5, 6⟩ : undo_action_t)].length + 1 + [(⟨1, 2⟩ : undo_action_t)].length⟩
          = .ok (⟨[(⟨1, 2⟩ : undo_action_t)].drop ([(⟨1, 2⟩ : undo_action_t)].length - 1), 1⟩, ev)
        ∧ released ev = [⟨5, 6⟩] ++ ⟨3, 0⟩
            :: [(⟨1, 2⟩ : undo_action_t)].take ([(⟨1, 2⟩ : undo_action_t)].length - 1)
        ∧ invocations ev = calls_of [⟨5, 6⟩]
            ++ (if (3 : Nat) ≠ 0 ∧ (0 : Nat) ≠ 0 then [((3 : Nat), (0 : Nat))] else [])
            ++ calls_of ([(⟨1, 2⟩ : undo_action_t)].take
                ([(⟨1, 2⟩ : undo_action_t)].length - 1))) :=
  ⟨(invoked_iff_both_non_null [⟨5, 6⟩] [⟨1, 2⟩] ⟨3, 0⟩ 3 (by decide)).1 [] 1 (by decide),
   (invoked_iff_both_non_null [⟨5, 6⟩] [⟨1, 2⟩] ⟨3, 0⟩ 3 (by decide)).2.1,
   (invoked_iff_both_non_null [⟨5, 6⟩] [⟨1, 2⟩] ⟨3, 0⟩ 3 (by decide)).2.2 1 (by decide)⟩

/-- C8: when `sp` is at least the depth, `rollbackTo(sp)` and `commitTo(sp)` return
at once with the same chain and the same depth and no event at all; so does
`rollbackTo(mark())` right after `mark()`. -/
theorem stale_savepoint_noop (s : undo_stack_t) (sp : Nat) (h : s.count ≤ sp) (fuel : Nat) :
    rollback_to_impl sp fuel s = .ok (s, [])
      ∧ commit_to_impl sp fuel s = .ok (s, [])
      ∧ rollback_to_impl (mark_impl s) fuel s = .ok (s, [])
      ∧ commit_to_impl (mark_impl s) fuel s = .ok (s, []) :=
  ⟨while_count_stop 1 sp fuel s h, while_count_stop 0 sp fuel s h,
   while_count_stop 1 s.count fuel s (Nat.le_refl _),
   while_count_stop 0 s.count fuel s (Nat.le_refl _)⟩

/-- Witness of C8: depth 2, savepoint 5, no fuel at all. -/
theorem stale_savepoint_noop_witness :
    rollback_to_impl 5 0 ⟨[⟨3, 4⟩, ⟨1, 2⟩], 2⟩ = .ok (⟨[⟨3, 4⟩, ⟨1, 2⟩], 2⟩, [])
      ∧ commit_to_impl 5 0 ⟨[⟨3, 4⟩, ⟨1, 2⟩], 2⟩ = .ok (⟨[⟨3, 4⟩, ⟨1, 2⟩], 2⟩, [])
      ∧ rollback_to_impl (mark_impl ⟨[⟨3, 4⟩, ⟨1, 2⟩], 2⟩) 0 ⟨[⟨3, 4⟩, ⟨1, 2⟩], 2⟩
          = .ok (⟨[⟨3, 4⟩, ⟨1, 2⟩], 2⟩, [])
      ∧ commit_to_impl (mark_impl ⟨[⟨3, 4⟩, ⟨1, 2⟩], 2⟩) 0 ⟨[⟨3, 4⟩, ⟨1, 2⟩], 2⟩
          = .ok (⟨[⟨3, 4⟩, ⟨1, 2⟩], 2⟩, []) :=
  stale_savepoint_noop ⟨[⟨3, 4⟩, ⟨1, 2⟩], 2⟩ 5 (by decide) 0

/-- C9: on a log whose depth is the length of its chain, `rollback()` and
`rollbackTo(0)` return the same result: the empty log with `count = 0`, every
action popped top to bottom, and exactly those with both fields non-null
invoked, in that order. -/
theorem rollback_eq_rollback_to_zero (s : undo_stack_t) (hc : Consistent s)
    (fuel : Nat) (hfuel : s.count ≤ fuel) :
    rollback_impl fuel s = rollback_to_impl 0 fuel s
      ∧ ∃ ev, rollback_impl fuel s = .ok (⟨[], 0⟩, ev)
        ∧ invocations ev = calls_of s.top
        ∧ released ev = s.top := by
  have hc2 : s.count = s.top.length := hc
  have h1 := while_top_eq 1 fuel s (by omega) (by omega)
  have h2 := while_count_drain 1 fuel s.top s.count hc2 hfuel
  have hs : s = ⟨s.top, s.count⟩ := rfl
  have hr : rollback_impl fuel s = .ok (⟨[], 0⟩, pop_events 1 s.top) := by
    simp only [rollback_impl, h1]
  refine ⟨?_, pop_events 1 s.top, hr, invocations_pop_events_rollback _,
    released_pop_events 1 _⟩
  rw [hr, rollback_to_impl, hs, h2]

/-- Witness of C9: depth 3. -/
theorem rollback_eq_rollback_to_zero_witness :
    rollback_impl 3 ⟨[⟨4, 5⟩, ⟨0, 3⟩, ⟨1, 2⟩], 3⟩
        = rollback_to_impl 0 3 ⟨[⟨4, 5⟩, ⟨0, 3⟩, ⟨1, 2⟩], 3⟩
      ∧ ∃ ev, rollback_impl 3 ⟨[⟨4, 5⟩, ⟨0, 3⟩, ⟨1, 2⟩], 3⟩ = .ok (⟨[], 0⟩, ev)
        ∧ invocations ev = calls_of [⟨4, 5⟩, ⟨0, 3⟩, ⟨1, 2⟩]
        ∧ released ev = [⟨4, 5⟩, ⟨0, 3⟩, ⟨1, 2⟩] :=
  rollback_eq_rollback_to_zero ⟨[⟨4, 5⟩, ⟨0, 3⟩, ⟨1, 2⟩], 3⟩ (by decide) 3 (by decide)

/-- C10: on a log whose depth is the length of its chain, `commit()` and
`commitTo(0)` return the same result: the empty log with `count = 0`, every
action popped, nothing invoked. -/
theorem commit_eq_commit_to_zero (s : undo_stack_t) (hc : Consistent s)
    (fuel : Nat) (hfuel : s.count ≤ fuel) :
    commit_impl fuel s = commit_to_impl 0 fuel s
      ∧ ∃ ev, commit_impl fuel s = .ok (⟨[], 0⟩, ev)
        ∧ invocations ev = []
        ∧ released ev = s.top := by
  have hc2 : s.count = s.top.length := hc
  have h1 := while_top_eq 0 fuel s (by omega) (by omega)
  have h2 := while_count_drain 0 fuel s.top s.count hc2 hfuel
  have hs : s = ⟨s.top, s.count⟩ := rfl
  have hr : commit_impl fuel s = .ok (⟨[], 0⟩, pop_events 0 s.top) := by
    simp only [commit_impl, h1]
  refine ⟨?_, pop_events 0 s.top, hr, invocations_pop_events_commit _,
    released_pop_events 0 _⟩
  rw [hr, commit_to_impl, hs, h2]

/-- Witness of C10: depth 3. -/
theorem commit_eq_commit_to_zero_witness :
    commit_impl 3 ⟨[⟨4, 5⟩, ⟨0, 3⟩, ⟨1, 2⟩], 3⟩
        = commit_to_impl 0 3 ⟨[⟨4, 5⟩, ⟨0, 3⟩, ⟨1, 2⟩], 3⟩
      ∧ ∃ ev, commit_impl 3 ⟨[⟨4, 5⟩, ⟨0, 3⟩, ⟨1, 2⟩], 3⟩ = .ok (⟨[], 0⟩, ev)
        ∧ invocations ev = []
        ∧ released ev = [⟨4, 5⟩, ⟨0, 3⟩, ⟨1, 2⟩] :=
  commit_eq_commit_to_zero ⟨[⟨4, 5⟩, ⟨0, 3⟩, ⟨1, 2⟩], 3⟩ (by decide) 3 (by decide)

/-- C11: when `malloc` returns a node and `count + 1` is in the range of `size_t`,
`push(fn, ctx)` (either argument may be null) returns with `(fn, ctx)` as the new
top whose `next` link is the previous top, `count` one higher, every earlier
action unchanged and in place, and no event performed; on a thread without a log
the log is created first and the action becomes its only one. -/
theorem push_makes_new_top (s : undo_stack_t) (fn ctx : Nat) (fuel : Nat) (lib : Libc)
    (hm : lib.malloc_ok = true) (hb : s.count + 1 < SIZE_MOD) :
    Undo_call fuel lib (.push fn ctx) (some s)
        = .ok { stack := ⟨⟨fn, ctx⟩ :: s.top, s.count + 1⟩, events := [], value := none }
      ∧ (push_impl fn ctx s).top.head? = some ⟨fn, ctx⟩
      ∧ (push_impl fn ctx s).top.tail = s.top
      ∧ (push_impl fn ctx s).count = s.count + 1
      ∧ (lib.calloc_ok = true → lib.setspecific_ok = true →
          Undo_call fuel lib (.push fn ctx) none
            = .ok { stack := ⟨[⟨fn, ctx⟩], 1⟩, events := [], value := none }) := by
  have hmod : (s.count + 1) % SIZE_MOD = s.count + 1 := Nat.mod_eq_of_lt hb
  refine ⟨?_, ?_, ?_, ?_, ?_⟩
  · simp [Undo_call, get_stack, push_impl_alloc, hm, Reply.of_outcome, push_impl, hmod]
  · simp [push_impl]
  · simp [push_impl]
  · simp [push_impl, hmod]
  · intro hc hs
    simp [Undo_call, get_stack, push_impl_alloc, hm, hc, hs, Reply.of_outcome, push_impl,
      SIZE_MOD]

/-- Witness of C11: a push with a null undo function on a log of depth 1. -/
theorem push_makes_new_top_witness :
    Undo_call 0 Libc.all_ok (.push 0 9) (some ⟨[⟨1, 2⟩], 1⟩)
        = .ok { stack := ⟨⟨0, 9⟩ :: [⟨1, 2⟩], 1 + 1⟩, events := [], value := none }
      ∧ (push_impl 0 9 ⟨[⟨1, 2⟩], 1⟩).top.head? = some ⟨0, 9⟩
      ∧ (push_impl 0 9 ⟨[⟨1, 2⟩], 1⟩).top.tail = [⟨1, 2⟩]
      ∧ (push_impl 0 9 ⟨[⟨1, 2⟩], 1⟩).count = 1 + 1
      ∧ Undo_call 0 Libc.all_ok (.push 0 9) none
            = .ok { stack := ⟨[⟨0, 9⟩], 1⟩, events := [], value := none } :=
  have h := push_makes_new_top ⟨[⟨1, 2⟩], 1⟩ 0 9 0 Libc.all_ok rfl (by decide)
  ⟨h.1, h.2.1, h.2.2.1, h.2.2.2.1, h.2.2.2.2 rfl rfl⟩

/-- C12: `mark()` returns the `count` of the calling thread's log and leaves the log
as it was, with no event; on a thread without a log (and `calloc`,
`pthread_setspecific` succeeding) it installs the empty log and returns 0. -/
theorem mark_returns_depth (s : undo_stack_t) (fuel : Nat) (lib : Libc) :
    Undo_call fuel lib .mark (some s)
        = .ok { stack := s, events := [], value := some s.count }
      ∧ (lib.calloc_ok = true → lib.setspecific_ok = true →
          Undo_call fuel lib .mark none
            = .ok { stack := ⟨[], 0⟩, events := [], value := some 0 }) := by
  refine ⟨?_, ?_⟩
  · simp [Undo_call, get_stack, mark_impl]
  · intro hc hs
    simp [Undo_call, get_stack, mark_impl, hc, hs]

/-- Witness of C12: a log of depth 2, and a thread without a log. -/
theorem mark_returns_depth_witness :
    Undo_call 0 Libc.all_ok .mark (some ⟨[⟨3, 4⟩, ⟨1, 2⟩], 2⟩)
        = .ok { stack := ⟨[⟨3, 4⟩, ⟨1, 2⟩], 2⟩, events := [], value := some 2 }
      ∧ Undo_call 0 Libc.all_ok .mark none
        = .ok { stack := ⟨[], 0⟩, events := [], value := some 0 } :=
  ⟨(mark_returns_depth ⟨[⟨3, 4⟩, ⟨1, 2⟩], 2⟩ 0 Libc.all_ok).1,
   (mark_returns_depth ⟨[⟨3, 4⟩, ⟨1, 2⟩], 2⟩ 0 Libc.all_ok).2 rfl rfl⟩

/-- C13: whatever the log and `sp`, once `rollbackTo(sp)` has returned a second
`rollbackTo(sp)` returns at once with the same log and no event; and on a log
whose depth is the length of its chain the first call does return, so the two
calls in a row give the result of the first. -/
theorem rollback_to_idempotent (s : undo_stack_t) (sp : Nat) (fuel : Nat) :
    (∀ s1 ev1, rollback_to_impl sp fuel s = .ok (s1, ev1) →
        ∀ fuel2, rollback_to_impl sp fuel2 s1 = .ok (s1, []))
      ∧ (Consistent s → s.count - sp ≤ fuel →
          ∃ s1 ev1, rollback_to_impl sp fuel s = .ok (s1, ev1)
            ∧ (∀ fuel2, rollback_to_impl sp fuel2 s1 = .ok (s1, []))
            ∧ and_then (rollback_to_impl sp fuel s) (rollback_to_impl sp fuel)
                = .ok (s1, ev1)) := by
  have hA : ∀ s1 ev1, rollback_to_impl sp fuel s = .ok (s1, ev1) →
      ∀ fuel2, rollback_to_impl sp fuel2 s1 = .ok (s1, []) := by
    intro s1 ev1 h fuel2
    exact while_count_stop 1 sp fuel2 s1 (while_count_result_le 1 sp fuel s s1 ev1 h)
  refine ⟨hA, ?_⟩
  intro hc hfuel
  have hc2 : s.count = s.top.length := hc
  have hfirst : ∃ s1 ev1, rollback_to_impl sp fuel s = .ok (s1, ev1) := by
    by_cases hsp : sp < s.count
    · exact ⟨_, _, while_count_eq 1 sp fuel s (by omega) (by omega) hfuel⟩
    · exact ⟨_, _, while_count_stop 1 sp fuel s (by omega)⟩
  obtain ⟨s1, ev1, h1⟩ := hfirst
  refine ⟨s1, ev1, h1, hA s1 ev1 h1, ?_⟩
  simp only [and_then, h1, hA s1 ev1 h1 fuel, List.append_nil]

/-- Witness of C13: depth 3, savepoint 1. -/
theorem rollback_to_idempotent_witness :
    ∃ s1 ev1, rollback_to_impl 1 2 ⟨[⟨4, 5⟩, ⟨0, 3⟩, ⟨1, 2⟩], 3⟩ = .ok (s1, ev1)
      ∧ (∀ fuel2, rollback_to_impl 1 fuel2 s1 = .ok (s1, []))
      ∧ and_then (rollback_to_impl 1 2 ⟨[⟨4, 5⟩, ⟨0, 3⟩, ⟨1, 2⟩], 3⟩) (rollback_to_impl 1 2)
          = .ok (s1, ev1) :=
  (rollback_to_idempotent ⟨[⟨4, 5⟩, ⟨0, 3⟩, ⟨1, 2⟩], 3⟩ 1 2).2 (by decide) (by decide)

/-- C14: on a log whose depth is the length of its chain, `destroy` returns having
popped every remaining action with no undo function invoked, whatever the
fields are: the same events and the same drained log (`count = 0`, empty chain)
as `commit()`, after which the slot is cleared and the log released. -/
theorem destroy_drains_like_commit (s : undo_stack_t) (hc : Consistent s)
    (fuel : Nat) (hfuel : s.count ≤ fuel) :
    ∃ ev, destroy fuel s = .ok (⟨[], 0⟩, ev, none)
      ∧ commit_impl fuel s = .ok (⟨[], 0⟩, ev)
      ∧ invocations ev = []
      ∧ released ev = s.top := by
  have hc2 : s.count = s.top.length := hc
  have h1 := while_top_eq 0 fuel s (by omega) (by omega)
  have h2 := while_count_drain 0 fuel s.top s.count hc2 hfuel
  have hs : s = ⟨s.top, s.count⟩ := rfl
  refine ⟨pop_events 0 s.top, ?_, ?_, invocations_pop_events_commit _,
    released_pop_events 0 _⟩
  · rw [destroy, hs, h2]
  · simp only [commit_impl, h1]

/-- Witness of C14: depth 3, every action with both fields non-null. -/
theorem destroy_drains_like_commit_witness :
    ∃ ev, destroy 3 ⟨[⟨5, 6⟩, ⟨3, 4⟩, ⟨1, 2⟩], 3⟩ = .ok (⟨[], 0⟩, ev, none)
      ∧ commit_impl 3 ⟨[⟨5, 6⟩, ⟨3, 4⟩, ⟨1, 2⟩], 3⟩ = .ok (⟨[], 0⟩, ev)
      ∧ invocations ev = []
      ∧ released ev = [⟨5, 6⟩, ⟨3, 4⟩, ⟨1, 2⟩] :=
  destroy_drains_like_commit ⟨[⟨5, 6⟩, ⟨3, 4⟩, ⟨1, 2⟩], 3⟩ (by decide) 3 (by decide)

/-- C15: evaluation at a failed allocation.  When `calloc` fails in `get_stack`
every operation aborts; when `malloc` fails in `push` on a thread that has its
log, `push_impl` does not abort: it stores through the null pointer. -/
theorem push_malloc_failure_not_aborted :
    (∀ fuel op, Undo_call fuel ⟨false, true, true⟩ op none = .error .aborted)
      ∧ Undo_call 0 ⟨true, true, false⟩ (.push 1 2) (some empty) = .error .null_deref
      ∧ Undo_call 0 ⟨true, true, false⟩ (.push 1 2) (some empty) ≠ .error .aborted := by
  refine ⟨?_, rfl, ?_⟩
  · intro fuel op
    simp [Undo_call, get_stack]
  · intro h
    have h2 : Undo_call 0 ⟨true, true, false⟩ (.push 1 2) (some empty)
        = .error .null_deref := rfl
    rw [h2] at h
    cases h

/-- C16: evaluation of the two declarations.  The table type of `undo_manager.h`
has no member `rollback` (it declares `abort` in that place), so the designator
`.rollback` of the initialiser names no member, and the member `abort` is bound
to nothing; the other five designators name members of the type. -/
theorem Undo_table_mismatch :
    Member.rollback ∉ undo_manager_t_members
      ∧ (Undo_initialiser.map Prod.fst).filter (fun m => m ∉ undo_manager_t_members)
          = [Member.rollback]
      ∧ undo_manager_t_members.filter (fun m => m ∉ Undo_initialiser.map Prod.fst)
          = [Member.abort]
      ∧ (Member.rollback, Impl.rollback_impl) ∈ Undo_initialiser
      ∧ (Member.commit, Impl.commit_impl) ∈ Undo_initialiser := by
  decide


/-- C17: threads share the statics `key_once` and `key`, pthread's table of
thread-specific values and the heap.  From a memory in which no thread has
called into the table yet (and with `pthread_key_create` succeeding), for every
run of calls interleaved call by call: if the run returns, the log each thread
owns at the end, the events each of its calls performed and the values its
`mark` calls returned are those of its own calls run alone from no log; if the
run halts, some thread's own calls run alone halt the same way; with every
library call succeeding the run does return; and at every point of a run a call
made from one thread leaves the log of every other thread as it was. -/
theorem threads_keep_private_logs (fuel : Nat) (lib : Libc) (sched : List (Nat × Op))
    (M : Memory) (hstart : M.key_once = false) :
    (∀ M1 recs, run_shared fuel lib true sched M = .ok (M1, recs) →
        ∀ A, run_thread fuel lib (calls_from A sched) none
          = .ok (log_of M1 A, records_from A recs))
      ∧ (∀ e, run_shared fuel lib true sched M = .error e →
          ∃ A, run_thread fuel lib (calls_from A sched) none = .error e)
      ∧ (lib.calloc_ok = true → lib.setspecific_ok = true → lib.malloc_ok = true →
          sched.length < SIZE_MOD → sched.length ≤ fuel →
          ∃ M1 recs, run_shared fuel lib true sched M = .ok (M1, recs))
      ∧ (∀ M1 recs, run_shared fuel lib true sched M = .ok (M1, recs) →
          ∀ A op M2 ev v, Undo_call_shared fuel lib true A op M1 = .ok (M2, ev, v) →
            ∀ B, B ≠ A → log_of M2 B = log_of M1 B) := by
  have hM : Sound M := sound_before_key M hstart
  refine ⟨?_, ?_, ?_, ?_⟩
  · intro M1 recs h A
    have hp := run_shared_project fuel lib A sched M M1 recs hM h
    rw [log_of_before_key M hstart A] at hp
    exact hp
  · intro e h
    obtain ⟨A, hA⟩ := run_shared_error fuel lib e sched M hM h
    rw [log_of_before_key M hstart A] at hA
    exact ⟨A, hA⟩
  · intro hc hs hm hb hf
    refine run_shared_returns fuel lib hc hs hm sched M hM hb hf ?_
    intro t s hts
    rw [log_of_before_key M hstart t] at hts
    cases hts
  · intro M1 recs h A op M2 ev v hcall B hB
    have hM1 : Sound M1 := run_shared_sound fuel lib sched M M1 recs hM h
    obtain ⟨herr, hok⟩ := Undo_call_shared_sound fuel lib A op M1 hM1
    cases hU : Undo_call fuel lib op (log_of M1 A) with
    | error e =>
      rw [herr e hU] at hcall
      cases hcall
    | ok r =>
      obtain ⟨M3, hcall3, -, -, -, hframe⟩ := hok r hU
      rw [hcall3] at hcall
      simp only [Except.ok.injEq, Prod.mk.injEq] at hcall
      rw [← hcall.1]
      exact hframe B hB

/-- Witness of C17: threads 0 and 1 push in turn, thread 0 marks and rolls back. -/
theorem threads_keep_private_logs_witness :
    ∃ M1 recs,
      run_shared 6 Libc.all_ok true
          [(0, .push 1 2), (1, .push 3 4), (0, .mark), (1, .push 5 6), (0, .rollback),
            (1, .mark)] Memory.start = .ok (M1, recs)
      ∧ run_thread 6 Libc.all_ok [.push 1 2, .mark, .rollback] none
          = .ok (log_of M1 0, records_from 0 recs)
      ∧ run_thread 6 Libc.all_ok [.push 3 4, .push 5 6, .mark] none
          = .ok (log_of M1 1, records_from 1 recs)
      ∧ log_of M1 0 = some ⟨[], 0⟩
      ∧ log_of M1 1 = some ⟨[⟨5, 6⟩, ⟨3, 4⟩], 2⟩
      ∧ records_from 0 recs
          = [([], none), ([], some 1), ([.invoke 1 2, .release ⟨1, 2⟩], none)]
      ∧ records_from 1 recs = [([], none), ([], none), ([], some 2)] := by
  have h := threads_keep_private_logs 6 Libc.all_ok
    [(0, .push 1 2), (1, .push 3 4), (0, .mark), (1, .push 5 6), (0, .rollback), (1, .mark)]
    Memory.start rfl
  obtain ⟨M1, recs, hrun⟩ := h.2.2.1 rfl rfl rfl (by decide) (by decide)
  have h0 := h.1 M1 recs hrun 0
  have h1 := h.1 M1 recs hrun 1
  have e0 : run_thread 6 Libc.all_ok [.push 1 2, .mark, .rollback] none
      = .ok (some ⟨[], 0⟩,
          [([], none), ([], some 1), ([.invoke 1 2, .release ⟨1, 2⟩], none)]) := rfl
  have e1 : run_thread 6 Libc.all_ok [.push 3 4, .push 5 6, .mark] none
      = .ok (some ⟨[⟨5, 6⟩, ⟨3, 4⟩], 2⟩, [([], none), ([], none), ([], some 2)]) := rfl
  have c0 : calls_from 0
      [(0, Op.push 1 2), (1, .push 3 4), (0, .mark), (1, .push 5 6), (0, .rollback),
        (1, .mark)] = [.push 1 2, .mark, .rollback] := rfl
  have c1 : calls_from 1
      [(0, Op.push 1 2), (1, .push 3 4), (0, .mark), (1, .push 5 6), (0, .rollback),
        (1, .mark)] = [.push 3 4, .push 5 6, .mark] := rfl
  rw [c0] at h0
  rw [c1] at h1
  have i0 := e0.symm.trans h0
  have i1 := e1.symm.trans h1
  simp only [Except.ok.injEq, Prod.mk.injEq] at i0 i1
  exact ⟨M1, recs, hrun, h0, h1, i0.1.symm, i1.1.symm, i0.2.symm, i1.2.symm⟩

/-- C18: with `malloc` succeeding and fewer calls than `size_t` has values, any run of
`push`, `mark`, `commit`, `commitTo`, `rollback`, `rollbackTo` calls from the
empty log (or from a thread that has no log yet) returns, and in the log it
leaves `count` is the length of the chain; and each of the six calls, made on a
log with that property, returns a log with that property. -/
theorem depth_equals_chain_length (ops : List Op) (fuel : Nat) (lib : Libc)
    (hm : lib.malloc_ok = true) (hb : ops.length < SIZE_MOD) (hf : ops.length ≤ fuel) :
    (∃ s1 recs, run_thread fuel lib ops (some empty) = .ok (some s1, recs) ∧ Consistent s1)
      ∧ (lib.calloc_ok = true → lib.setspecific_ok = true →
          ∃ slot recs, run_thread fuel lib ops none = .ok (slot, recs)
            ∧ ∀ s1, slot = some s1 → Consistent s1)
      ∧ (∀ (s : undo_stack_t) (op : Op), Consistent s → s.count + 1 < SIZE_MOD →
          s.count ≤ fuel →
          ∃ r, Undo_call fuel lib op (some s) = .ok r ∧ Consistent r.stack) := by
  have hrun := run_thread_consistent fuel lib hm ops empty rfl
    (by simpa [empty] using hb) (by simpa [empty] using hf)
  refine ⟨hrun, ?_, ?_⟩
  · intro hcal hset
    cases ops with
    | nil => exact ⟨none, [], rfl, fun s1 h => by cases h⟩
    | cons op rest =>
      obtain ⟨s1, recs, h1, h2⟩ := hrun
      have hsame : run_thread fuel lib (op :: rest) none
          = run_thread fuel lib (op :: rest) (some empty) := by
        simp only [run_thread, Undo_call, get_stack, hcal, hset, if_true, empty]
      refine ⟨some s1, recs, hsame.trans h1, ?_⟩
      intro s2 h
      cases h
      exact h2
  · intro s op hc hb1 hf1
    obtain ⟨r, hr, hrc, -⟩ := Undo_call_consistent fuel lib hm s op hc hb1 hf1
    exact ⟨r, hr, hrc⟩

/-- Witness of C18: a run that pushes, marks, commits to the mark and rolls back. -/
theorem depth_equals_chain_length_witness :
    (∃ s1 recs, run_thread 6 Libc.all_ok
        [.push 1 2, .push 0 3, .mark, .push 4 5, .commit_to 2, .rollback_to 1] (some empty)
          = .ok (some s1, recs) ∧ Consistent s1)
      ∧ (∃ slot recs, run_thread 6 Libc.all_ok
        [.push 1 2, .push 0 3, .mark, .push 4 5, .commit_to 2, .rollback_to 1] none
          = .ok (slot, recs) ∧ ∀ s1, slot = some s1 → Consistent s1)
      ∧ (∃ r, Undo_call 6 Libc.all_ok .rollback (some ⟨[⟨3, 4⟩, ⟨1, 2⟩], 2⟩) = .ok r
          ∧ Consistent r.stack) :=
  have h := depth_equals_chain_length
    [.push 1 2, .push 0 3, .mark, .push 4 5, .commit_to 2, .rollback_to 1] 6 Libc.all_ok
    rfl (by decide) (by decide)
  ⟨h.1, h.2.1 rfl rfl,
   h.2.2 ⟨[⟨3, 4⟩, ⟨1, 2⟩], 2⟩ .rollback (by decide) (by decide) (by decide)⟩

/-- C19: on a log whose depth `d` is the length of its chain, with fuel `d` the
loops of `rollback()`, `commit()`, `rollbackTo(sp)` and `commitTo(sp)` all
return, without a pop from an empty chain: `rollback()` and `commit()` pop
exactly the `d` nodes of the chain, `rollbackTo(sp)` and `commitTo(sp)` exactly
the `d - sp` topmost when `d > sp` and none otherwise. -/
theorem loops_terminate (s : undo_stack_t) (sp : Nat) (hc : Consistent s)
    (fuel : Nat) (hf : s.count ≤ fuel) :
    (∃ ev, rollback_impl fuel s = .ok (⟨[], 0⟩, ev)
        ∧ released ev = s.top ∧ (released ev).length = s.count)
      ∧ (∃ ev, commit_impl fuel s = .ok (⟨[], 0⟩, ev)
        ∧ released ev = s.top ∧ (released ev).length = s.count)
      ∧ (∃ s1 ev, rollback_to_impl sp fuel s = .ok (s1, ev)
        ∧ released ev = s.top.take (s.count - sp)
        ∧ (released ev).length = s.count - sp)
      ∧ (∃ s1 ev, commit_to_impl sp fuel s = .ok (s1, ev)
        ∧ released ev = s.top.take (s.count - sp)
        ∧ (released ev).length = s.count - sp)
      ∧ (s.count ≤ sp → rollback_to_impl sp fuel s = .ok (s, [])
          ∧ commit_to_impl sp fuel s = .ok (s, [])) := by
  have hc2 : s.count = s.top.length := hc
  have hlen : (s.top.take (s.count - sp)).length = s.count - sp := by
    simp only [List.length_take]; omega
  refine ⟨?_, ?_, ?_, ?_, ?_⟩
  · refine ⟨pop_events 1 s.top, ?_, released_pop_events 1 _, ?_⟩
    · simp only [rollback_impl, while_top_consistent 1 fuel s hc hf]
    · rw [released_pop_events, hc2]
  · refine ⟨pop_events 0 s.top, ?_, released_pop_events 0 _, ?_⟩
    · simp only [commit_impl, while_top_consistent 0 fuel s hc hf]
    · rw [released_pop_events, hc2]
  · obtain ⟨s1, ev, h1, -, -, -, h5⟩ := while_count_consistent 1 sp fuel s hc (by omega)
    exact ⟨s1, ev, h1, h5, by rw [h5, hlen]⟩
  · obtain ⟨s1, ev, h1, -, -, -, h5⟩ := while_count_consistent 0 sp fuel s hc (by omega)
    exact ⟨s1, ev, h1, h5, by rw [h5, hlen]⟩
  · intro hle
    exact ⟨while_count_stop 1 sp fuel s hle, while_count_stop 0 sp fuel s hle⟩

/-- Witness of C19: depth 3, savepoint 1. -/
theorem loops_terminate_witness :
    (∃ ev, rollback_impl 3 ⟨[⟨4, 5⟩, ⟨0, 3⟩, ⟨1, 2⟩], 3⟩ = .ok (⟨[], 0⟩, ev)
        ∧ released ev = [⟨4, 5⟩, ⟨0, 3⟩, ⟨1, 2⟩] ∧ (released ev).length = 3)
      ∧ (∃ ev, commit_impl 3 ⟨[⟨4, 5⟩, ⟨0, 3⟩, ⟨1, 2⟩], 3⟩ = .ok (⟨[], 0⟩, ev)
        ∧ released ev = [⟨4, 5⟩, ⟨0, 3⟩, ⟨1, 2⟩] ∧ (released ev).length = 3)
      ∧ (∃ s1 ev, rollback_to_impl 1 3 ⟨[⟨4, 5⟩, ⟨0, 3⟩, ⟨1, 2⟩], 3⟩ = .ok (s1, ev)
        ∧ released ev = [⟨4, 5⟩, ⟨0, 3⟩]
        ∧ (released ev).length = 3 - 1)
      ∧ (∃ s1 ev, commit_to_impl 1 3 ⟨[⟨4, 5⟩, ⟨0, 3⟩, ⟨1, 2⟩], 3⟩ = .ok (s1, ev)
        ∧ released ev = [⟨4, 5⟩, ⟨0, 3⟩]
        ∧ (released ev).length = 3 - 1) :=
  have h := loops_terminate ⟨[⟨4, 5⟩, ⟨0, 3⟩, ⟨1, 2⟩], 3⟩ 1 (by decide) 3 (by decide)
  ⟨h.1, h.2.1, h.2.2.1, h.2.2.2.1⟩

/-- C20: on a log whose depth is the length of its chain, for `sp1 <= sp2`,
`rollbackTo(sp2)` then `rollbackTo(sp1)` returns the same log and the same
events in the same order as `rollbackTo(sp1)` alone, and `commitTo(sp2)` then
`commitTo(sp1)` the same log as `commitTo(sp1)` alone, with nothing invoked;
all of these return. -/
theorem nested_savepoints_compose (s : undo_stack_t) (sp1 sp2 : Nat) (h12 : sp1 ≤ sp2)
    (hc : Consistent s) (fuel : Nat) (hf : s.count ≤ fuel) :
    ∃ s1 ev ev0,
      rollback_to_impl sp1 fuel s = .ok (s1, ev)
      ∧ and_then (rollback_to_impl sp2 fuel s) (rollback_to_impl sp1 fuel) = .ok (s1, ev)
      ∧ commit_to_impl sp1 fuel s = .ok (s1, ev0)
      ∧ and_then (commit_to_impl sp2 fuel s) (commit_to_impl sp1 fuel) = .ok (s1, ev0)
      ∧ invocations ev0 = []
      ∧ s1 = ⟨s.top.drop (s.count - sp1), min s.count sp1⟩ := by
  have hc2 : s.count = s.top.length := hc
  have hr := while_count_compose 1 s sp1 sp2 h12 hc fuel hf
  have hcm := while_count_compose 0 s sp1 sp2 h12 hc fuel hf
  by_cases hsp : sp1 < s.count
  · have h1 := while_count_eq 1 sp1 fuel s (by omega) (by omega) (by omega)
    have h0 := while_count_eq 0 sp1 fuel s (by omega) (by omega) (by omega)
    refine ⟨_, _, _, h1, ?_, h0, ?_, invocations_pop_events_commit _, ?_⟩
    · exact hr.trans h1
    · exact hcm.trans h0
    · rw [Nat.min_eq_right (by omega)]
  · have h1 := while_count_stop 1 sp1 fuel s (by omega)
    have h0 := while_count_stop 0 sp1 fuel s (by omega)
    refine ⟨s, [], [], h1, ?_, h0, ?_, rfl, ?_⟩
    · exact hr.trans h1
    · exact hcm.trans h0
    · have hz : s.count - sp1 = 0 := by omega
      rw [hz, Nat.min_eq_left (by omega), List.drop_zero]

/-- Witness of C20: depth 4, savepoints 1 and 3. -/
theorem nested_savepoints_compose_witness :
    ∃ s1 ev ev0,
      rollback_to_impl 1 4 ⟨[⟨7, 8⟩, ⟨5, 0⟩, ⟨3, 4⟩, ⟨1, 2⟩], 4⟩ = .ok (s1, ev)
      ∧ and_then (rollback_to_impl 3 4 ⟨[⟨7, 8⟩, ⟨5, 0⟩, ⟨3, 4⟩, ⟨1, 2⟩], 4⟩)
          (rollback_to_impl 1 4) = .ok (s1, ev)
      ∧ commit_to_impl 1 4 ⟨[⟨7, 8⟩, ⟨5, 0⟩, ⟨3, 4⟩, ⟨1, 2⟩], 4⟩ = .ok (s1, ev0)
      ∧ and_then (commit_to_impl 3 4 ⟨[⟨7, 8⟩, ⟨5, 0⟩, ⟨3, 4⟩, ⟨1, 2⟩], 4⟩)
          (commit_to_impl 1 4) = .ok (s1, ev0)
      ∧ invocations ev0 = []
      ∧ s1 = ⟨[⟨1, 2⟩], 1⟩ :=
  nested_savepoints_compose ⟨[⟨7, 8⟩, ⟨5, 0⟩, ⟨3, 4⟩, ⟨1, 2⟩], 4⟩ 1 3 (by decide) (by decide)
    4 (by decide)

end UndoManager
